import Mathlib

/-
Verification of the node_simulator graph core (src/graph.rs, src/state.rs,
src/editor.rs) via a shallow embedding.

Modelling decisions, chosen to mirror the Rust source:

- slotmap identities (ID) are modelled as natural numbers handed out by a
  monotone counter nextId.  slotmap keys are versioned and never alias a
  previously removed key, which the monotone counter captures: a removed
  identity is never handed out again.
- DenseSlotMap<ID, Node> holds records Node { id, data } with NodeData empty,
  so the node table is the list of identities that own a node record.
- SecondaryMap<ID, Edge> is a separate table: removing a key from the primary
  slot map does NOT remove the entry of the secondary map.  It is modelled as
  a list of Edge records looked up by id.
- HashMap<ID, HashSet<ID>> is modelled as an association list of (key, set)
  pairs where the set is a duplicate-free list; iteration order of a HashSet
  is unspecified in Rust, the model fixes insertion order.
- f32 coordinates (egui Pos2 / Vec2) are modelled as rational numbers; the
  claims under study concern which entries are written and with which
  midpoint expressions, not floating-point rounding.
-/

namespace NodeSim

/-- Edge record of src/graph.rs: a graph element id plus source and target. -/
structure Edge where
  id : Nat
  source : Nat
  target : Nat
deriving Repr, DecidableEq

/-- The Graph of src/graph.rs: node arena, secondary edge table, and the two
adjacency-index maps (outgoing and incoming). -/
structure Graph where
  nextId : Nat
  nodes : List Nat
  edges : List Edge
  source_to_edges : List (Nat × List Nat)
  target_to_edges : List (Nat × List Nat)
deriving Repr, DecidableEq

/-- Lookup in a HashMap<ID, HashSet<ID>>: the set stored at key k, or the
empty set when the key is absent (keys are unique in a HashMap, which every
operation below preserves). -/
def mlook : List (Nat × List Nat) → Nat → List Nat
  | [], _ => []
  | p :: t, k => if p.1 = k then p.2 else mlook t k

/-- HashSet insert: add x unless already present. -/
def sAdd (l : List Nat) (x : Nat) : List Nat :=
  if x ∈ l then l else l ++ [x]

/-- entry(k).or_insert_with(HashSet::new).insert(x) on a HashMap of sets. -/
def mInsert : List (Nat × List Nat) → Nat → Nat → List (Nat × List Nat)
  | [], k, x => [(k, [x])]
  | p :: t, k, x =>
    if p.1 = k then (p.1, sAdd p.2 x) :: t else p :: mInsert t k x

/-- get_mut(k) followed by set.remove(x), dropping the entry when the set
becomes empty (the pattern used in Graph::remove_edge). -/
def mDetach : List (Nat × List Nat) → Nat → Nat → List (Nat × List Nat)
  | [], _, _ => []
  | p :: t, k, x =>
    if p.1 = k then
      (let l := p.2.filter (fun y => y ≠ x)
       if l.isEmpty then t else (p.1, l) :: t)
    else p :: mDetach t k x

/-- HashMap::remove(k): drop the entry at key k. -/
def mDrop : List (Nat × List Nat) → Nat → List (Nat × List Nat)
  | [], _ => []
  | p :: t, k => if p.1 = k then t else p :: mDrop t k

/-- Graph::new / Default. -/
def Graph.new : Graph := ⟨0, [], [], [], []⟩

/-- Graph::add_node: allocate a fresh identity owning a node record. -/
def Graph.add_node (g : Graph) : Graph × Nat :=
  ({ g with nextId := g.nextId + 1, nodes := g.nodes ++ [g.nextId] }, g.nextId)

/-- Graph::get_node: lookup of the node record (the record carries only its
own id, NodeData being empty). -/
def Graph.get_node (g : Graph) (id : Nat) : Option Nat :=
  if id ∈ g.nodes then some id else none

/-- Graph::get_edge: lookup in the secondary edge table. -/
def Graph.get_edge (g : Graph) (id : Nat) : Option Edge :=
  g.edges.find? (fun e => e.id = id)

/-- Graph::add_edge: both endpoints are checked against the NODE table only;
on success a fresh identity receives BOTH a node record and an edge record,
and is indexed under its source (outgoing) and target (incoming). -/
def Graph.add_edge (g : Graph) (s t : Nat) : Graph × Option Nat :=
  if s ∈ g.nodes ∧ t ∈ g.nodes then
    ({ nextId := g.nextId + 1,
       nodes := g.nodes ++ [g.nextId],
       edges := g.edges ++ [⟨g.nextId, s, t⟩],
       source_to_edges := mInsert g.source_to_edges s g.nextId,
       target_to_edges := mInsert g.target_to_edges t g.nextId }, some g.nextId)
  else (g, none)

/-- Graph::remove_edge, with an explicit fuel bounding the recursion depth
(the Rust recursion is unbounded; on every graph the engine can build, child
edges are strictly younger than their source, so edges.length + 1 fuel always
suffices).  Children are collected from the OUTGOING index only, filtered to
those with a live edge record, removed recursively, and then the edge is
detached from the index entries of its own source and target and its edge
record (only) is deleted.  Exhausted fuel leaves the graph unchanged. -/
def Graph.remove_edge_fuel : Nat → Graph → Nat → Graph × Option Edge
  | 0, g, _ => (g, none)
  | fuel + 1, g, id =>
    match g.edges.find? (fun e => e.id = id) with
    | none => (g, none)
    | some e =>
      let children := (mlook g.source_to_edges e.id).filter
        (fun c => (g.edges.find? (fun e2 => e2.id = c)).isSome)
      let g1 := children.foldl
        (fun acc c => (Graph.remove_edge_fuel fuel acc c).1) g
      let g2 := { g1 with source_to_edges := mDetach g1.source_to_edges e.source id }
      let g3 := { g2 with target_to_edges := mDetach g2.target_to_edges e.target id }
      ({ g3 with edges := g3.edges.filter (fun e2 => e2.id ≠ id) },
       g3.edges.find? (fun e2 => e2.id = id))

/-- Graph::remove_edge at the canonical fuel. -/
def Graph.remove_edge (g : Graph) (id : Nat) : Graph × Option Edge :=
  Graph.remove_edge_fuel (g.edges.length + 1) g id

/-- The child-removal loop of Graph::remove_edge, named for the proofs: fold
remove_edge_fuel over the live members of the outgoing index entry of eid. -/
def removeChildren (fuel : Nat) (g : Graph) (eid : Nat) : Graph :=
  ((mlook g.source_to_edges eid).filter
    (fun c => (g.edges.find? (fun e2 => e2.id = c)).isSome)).foldl
    (fun acc c => (Graph.remove_edge_fuel fuel acc c).1) g

/-- Graph::remove_node: collect outgoing then incoming edges of id, remove
each via remove_edge, drop both index entries of id wholesale, and delete the
NODE record (only; a companion edge record is not touched). -/
def Graph.remove_node (g : Graph) (id : Nat) : Graph × Option Nat :=
  if id ∈ g.nodes then
    let toRemove := mlook g.source_to_edges id ++ mlook g.target_to_edges id
    let g1 := toRemove.foldl (fun acc eid => (Graph.remove_edge acc eid).1) g
    let g2 := { g1 with
      source_to_edges := mDrop g1.source_to_edges id,
      target_to_edges := mDrop g1.target_to_edges id }
    ({ g2 with nodes := g2.nodes.filter (fun n => n ≠ id) }, some id)
  else (g, none)

/-- Graph::get_outgoing_edges: outgoing index entry filtered to live edges. -/
def Graph.get_outgoing_edges (g : Graph) (id : Nat) : List Nat :=
  (mlook g.source_to_edges id).filterMap
    (fun eid => (g.get_edge eid).map (fun e => e.id))

/-- Graph::get_incoming_edges: incoming index entry filtered to live edges. -/
def Graph.get_incoming_edges (g : Graph) (id : Nat) : List Nat :=
  (mlook g.target_to_edges id).filterMap
    (fun eid => (g.get_edge eid).map (fun e => e.id))

/-- A 2-D coordinate (egui Pos2), with f32 modelled as a rational. -/
structure Pos2 where
  x : ℚ
  y : ℚ
deriving Repr, DecidableEq

/-- Midpoint of two coordinates: (a.to_vec2() + b.to_vec2()) * 0.5. -/
def mid (a b : Pos2) : Pos2 := ⟨(a.x + b.x) / 2, (a.y + b.y) / 2⟩

/-- Camera of src/state.rs (pan offset and zoom factor), f32 as rational. -/
structure Camera where
  offsetX : ℚ
  offsetY : ℚ
  zoom : ℚ
deriving Repr, DecidableEq

/-- Camera::default: zero offset, zoom 1.0. -/
def Camera.new : Camera := ⟨0, 0, 1⟩

/-- SecondaryMap<ID, Pos2> lookup. -/
def pLook : List (Nat × Pos2) → Nat → Option Pos2
  | [], _ => none
  | pr :: t, k => if pr.1 = k then some pr.2 else pLook t k

/-- SecondaryMap<ID, Pos2> insert: overwrite the entry when present,
append it otherwise. -/
def pInsert : List (Nat × Pos2) → Nat → Pos2 → List (Nat × Pos2)
  | [], k, v => [(k, v)]
  | pr :: t, k, v =>
    if pr.1 = k then (k, v) :: t else pr :: pInsert t k v

/-- SecondaryMap<ID, Pos2> remove. -/
def pRemove : List (Nat × Pos2) → Nat → List (Nat × Pos2)
  | [], _ => []
  | pr :: t, k => if pr.1 = k then t else pr :: pRemove t k

/-- GraphState of src/state.rs: graph, position overlay, camera. -/
structure GraphState where
  graph : Graph
  positions : List (Nat × Pos2)
  camera : Camera
deriving Repr, DecidableEq

/-- GraphState::new / Default. -/
def GraphState.new : GraphState := ⟨Graph.new, [], Camera.new⟩

/-- Loop body of GraphState::update_positions_recursive: breadth-first
traversal from the start identity with a visited set; a dequeued identity
that is an edge with both endpoint positions known gets the midpoint written
into the overlay; then all its outgoing and incoming live edges are enqueued.
One unit of fuel is one dequeue; each dequeue consumes an earlier enqueue, so
1 + 2 * (number of live edges) + 1 fuel covers every call. -/
def GraphState.update_positions_fuel :
    Nat → GraphState → List Nat → List Nat → GraphState
  | 0, st, _, _ => st
  | fuel + 1, st, visited, queue =>
    match queue with
    | [] => st
    | curr :: rest =>
      if curr ∈ visited then
        GraphState.update_positions_fuel fuel st visited rest
      else
        let st1 :=
          match st.graph.get_edge curr with
          | some e =>
              match pLook st.positions e.source, pLook st.positions e.target with
              | some ps, some pt =>
                  { st with positions := pInsert st.positions curr (mid ps pt) }
              | _, _ => st
          | none => st
        let outgoing := st1.graph.get_outgoing_edges curr
        let incoming := st1.graph.get_incoming_edges curr
        GraphState.update_positions_fuel fuel st1 (curr :: visited)
          (rest ++ outgoing ++ incoming)

/-- GraphState::update_positions_recursive with sufficient fuel. -/
def GraphState.update_positions_recursive (st : GraphState) (start : Nat) :
    GraphState :=
  GraphState.update_positions_fuel (2 * st.graph.edges.length + 2) st [] [start]

/-- GraphState::cleanup_positions: retain exactly the overlay entries whose
identity still has a node record or an edge record. -/
def GraphState.cleanup_positions (st : GraphState) : GraphState :=
  let keep := fun (pr : Nat × Pos2) =>
    (st.graph.get_node pr.1).isSome || (st.graph.get_edge pr.1).isSome
  { st with positions := st.positions.filter keep }

/-- GraphState::add_node_at. -/
def GraphState.add_node_at (st : GraphState) (p : Pos2) : GraphState × Nat :=
  let r := st.graph.add_node
  ({ st with graph := r.1, positions := pInsert st.positions r.2 p }, r.2)

/-- GraphState::remove_element: dispatch on the presence of a node record
first, an edge record second, then drop the overlay entry of id. -/
def GraphState.remove_element (st : GraphState) (id : Nat) : GraphState :=
  let g :=
    if (st.graph.get_node id).isSome then (st.graph.remove_node id).1
    else if (st.graph.get_edge id).isSome then (st.graph.remove_edge id).1
    else st.graph
  { st with graph := g, positions := pRemove st.positions id }

/-- Graph-level effect of GraphState::remove_element (the overlay aside),
used to close the reachable-state relation under remove_element. -/
def removeElementG (g : Graph) (id : Nat) : Graph :=
  if (g.get_node id).isSome then (g.remove_node id).1
  else if (g.get_edge id).isSome then (g.remove_edge id).1
  else g

/-- GraphState::add_edge_between: on success, additionally write the midpoint
of the endpoint positions for the new edge when both are known. -/
def GraphState.add_edge_between (st : GraphState) (s t : Nat) :
    GraphState × Option Nat :=
  match st.graph.add_edge s t with
  | (g, some eid) =>
      let positions1 :=
        match pLook st.positions s, pLook st.positions t with
        | some a, some b => pInsert st.positions eid (mid a b)
        | _, _ => st.positions
      ({ st with graph := g, positions := positions1 }, some eid)
  | (g, none) => ({ st with graph := g }, none)

/-- GraphEditor::move_node of src/editor.rs: write the new position of id and
propagate midpoints from it (the editor's other fields do not participate). -/
def GraphEditor.move_node (st : GraphState) (id : Nat) (p : Pos2) : GraphState :=
  GraphState.update_positions_recursive
    { st with positions := pInsert st.positions id p } id

/-- Two fresh nodes: identities 0 and 1. -/
def gPair : Graph := ((Graph.new.add_node).1.add_node).1

/-- Nodes 0, 1 and the edge 2 = (0 → 1). -/
def gE1 : Graph := (gPair.add_edge 0 1).1

/-- Nodes 0, 1, parallel edges 2 and 3 from 0 to 1, and edge 4 = (3 → 2)
whose target is the edge 2. -/
def gDangle : Graph := (((gE1.add_edge 0 1).1).add_edge 3 2).1

/-- The cycle scenario of the spec: e1 = 2 = (0 → 1), e4 = 3 = (2 → 1),
e5 = 4 = (3 → 2), a cycle through e1. -/
def gCycle : Graph := (((gE1.add_edge 2 1).1).add_edge 3 2).1

/-- Node 0 at the origin. -/
def stA : GraphState := (GraphState.new.add_node_at ⟨0, 0⟩).1

/-- Nodes 0 at (0,0) and 1 at (2,0). -/
def stB : GraphState := (stA.add_node_at ⟨2, 0⟩).1

/-- Nodes 0 at (0,0), 1 at (2,0), and edge 2 = (0 → 1) at the midpoint
(1,0). -/
def stE : GraphState := (stB.add_edge_between 0 1).1

/-
Modelled from the spec: the Snapshot Codec (GraphState::save_to_file /
load_from_file reduced to the buffer level, and Graph::to_binary /
from_binary).  The actual byte layout is produced by bincode and the serde
derive expansions of Graph and GraphState, which are external-crate and
generated code not present under src/; the spec fixes only that one opaque
blob carries {arena, edge source/target table, position overlay, view state}
and that decoding restores it exactly, identities unchanged.  The model is a
flat injective token encoding of exactly those components, with length
prefixes, mirroring bincode's length-prefixed sequence format.
-/

/-- Snapshot codec: one natural number as a token. -/
def encNat (n : Nat) : List Int := [(n : Int)]

/-- Snapshot codec: a length-prefixed list of naturals. -/
def encNats (l : List Nat) : List Int :=
  (l.length : Int) :: l.map Int.ofNat

/-- Snapshot codec: an edge record as id, source, target. -/
def encEdge (e : Edge) : List Int :=
  [(e.id : Int), (e.source : Int), (e.target : Int)]

/-- Snapshot codec: a length-prefixed edge table. -/
def encEdges (l : List Edge) : List Int :=
  (l.length : Int) :: (l.map encEdge).flatten

/-- Snapshot codec: one adjacency-index entry. -/
def encEntry (p : Nat × List Nat) : List Int := (p.1 : Int) :: encNats p.2

/-- Snapshot codec: a length-prefixed adjacency-index map. -/
def encMap (m : List (Nat × List Nat)) : List Int :=
  (m.length : Int) :: (m.map encEntry).flatten

/-- Snapshot codec: a rational as numerator and denominator. -/
def encRat (q : ℚ) : List Int := [q.num, (q.den : Int)]

/-- Snapshot codec: a coordinate. -/
def encPos (p : Pos2) : List Int := encRat p.x ++ encRat p.y

/-- Snapshot codec: one overlay entry. -/
def encPosEntry (pr : Nat × Pos2) : List Int := (pr.1 : Int) :: encPos pr.2

/-- Snapshot codec: the length-prefixed position overlay. -/
def encOverlay (l : List (Nat × Pos2)) : List Int :=
  (l.length : Int) :: (l.map encPosEntry).flatten

/-- Snapshot codec: the camera (view state). -/
def encCamera (c : Camera) : List Int :=
  encRat c.offsetX ++ encRat c.offsetY ++ encRat c.zoom

/-- Snapshot codec: the whole graph component. -/
def encodeGraph (g : Graph) : List Int :=
  (g.nextId : Int) :: (encNats g.nodes ++ encEdges g.edges ++
    encMap g.source_to_edges ++ encMap g.target_to_edges)

/-- Snapshot codec: the whole state, one blob. -/
def encodeGraphState (st : GraphState) : List Int :=
  encodeGraph st.graph ++ encOverlay st.positions ++ encCamera st.camera

/-- Snapshot decoder: one natural. -/
def decNat : List Int → Option (Nat × List Int)
  | [] => none
  | i :: rest => some (i.toNat, rest)

/-- Snapshot decoder: a counted list of naturals. -/
def decNatN : Nat → List Int → Option (List Nat × List Int)
  | 0, rest => some ([], rest)
  | n + 1, rest =>
    match decNat rest with
    | none => none
    | some (x, rest1) =>
      match decNatN n rest1 with
      | none => none
      | some (xs, rest2) => some (x :: xs, rest2)

/-- Snapshot decoder: a length-prefixed list of naturals. -/
def decNats (l : List Int) : Option (List Nat × List Int) :=
  match decNat l with
  | none => none
  | some (n, rest) => decNatN n rest

/-- Snapshot decoder: one edge record. -/
def decEdge (l : List Int) : Option (Edge × List Int) :=
  match decNat l with
  | none => none
  | some (i, r1) =>
    match decNat r1 with
    | none => none
    | some (s, r2) =>
      match decNat r2 with
      | none => none
      | some (t, r3) => some (⟨i, s, t⟩, r3)

/-- Snapshot decoder: a counted edge table. -/
def decEdgeN : Nat → List Int → Option (List Edge × List Int)
  | 0, rest => some ([], rest)
  | n + 1, rest =>
    match decEdge rest with
    | none => none
    | some (e, rest1) =>
      match decEdgeN n rest1 with
      | none => none
      | some (es, rest2) => some (e :: es, rest2)

/-- Snapshot decoder: a length-prefixed edge table. -/
def decEdges (l : List Int) : Option (List Edge × List Int) :=
  match decNat l with
  | none => none
  | some (n, rest) => decEdgeN n rest

/-- Snapshot decoder: one adjacency-index entry. -/
def decEntry (l : List Int) : Option ((Nat × List Nat) × List Int) :=
  match decNat l with
  | none => none
  | some (k, r1) =>
    match decNats r1 with
    | none => none
    | some (xs, r2) => some ((k, xs), r2)

/-- Snapshot decoder: a counted adjacency-index map. -/
def decEntryN : Nat → List Int → Option (List (Nat × List Nat) × List Int)
  | 0, rest => some ([], rest)
  | n + 1, rest =>
    match decEntry rest with
    | none => none
    | some (p, rest1) =>
      match decEntryN n rest1 with
      | none => none
      | some (ps, rest2) => some (p :: ps, rest2)

/-- Snapshot decoder: a length-prefixed adjacency-index map. -/
def decMap (l : List Int) : Option (List (Nat × List Nat) × List Int) :=
  match decNat l with
  | none => none
  | some (n, rest) => decEntryN n rest

/-- Snapshot decoder: a rational. -/
def decRat : List Int → Option (ℚ × List Int)
  | a :: d :: rest => some ((a : ℚ) / ((d.toNat : ℚ)), rest)
  | _ => none

/-- Snapshot decoder: a coordinate. -/
def decPos (l : List Int) : Option (Pos2 × List Int) :=
  match decRat l with
  | none => none
  | some (x, r1) =>
    match decRat r1 with
    | none => none
    | some (y, r2) => some (⟨x, y⟩, r2)

/-- Snapshot decoder: one overlay entry. -/
def decPosEntry (l : List Int) : Option ((Nat × Pos2) × List Int) :=
  match decNat l with
  | none => none
  | some (k, r1) =>
    match decPos r1 with
    | none => none
    | some (p, r2) => some ((k, p), r2)

/-- Snapshot decoder: a counted position overlay. -/
def decPosEntryN : Nat → List Int → Option (List (Nat × Pos2) × List Int)
  | 0, rest => some ([], rest)
  | n + 1, rest =>
    match decPosEntry rest with
    | none => none
    | some (pr, rest1) =>
      match decPosEntryN n rest1 with
      | none => none
      | some (prs, rest2) => some (pr :: prs, rest2)

/-- Snapshot decoder: a length-prefixed position overlay. -/
def decOverlay (l : List Int) : Option (List (Nat × Pos2) × List Int) :=
  match decNat l with
  | none => none
  | some (n, rest) => decPosEntryN n rest

/-- Snapshot decoder: the camera. -/
def decCamera (l : List Int) : Option (Camera × List Int) :=
  match decRat l with
  | none => none
  | some (ox, r1) =>
    match decRat r1 with
    | none => none
    | some (oy, r2) =>
      match decRat r2 with
      | none => none
      | some (z, r3) => some (⟨ox, oy, z⟩, r3)

/-- Snapshot decoder: the graph component. -/
def decodeGraph (l : List Int) : Option (Graph × List Int) :=
  match decNat l with
  | none => none
  | some (nid, r1) =>
    match decNats r1 with
    | none => none
    | some (ns, r2) =>
      match decEdges r2 with
      | none => none
      | some (es, r3) =>
        match decMap r3 with
        | none => none
        | some (sm, r4) =>
          match decMap r4 with
          | none => none
          | some (tm, r5) => some (⟨nid, ns, es, sm, tm⟩, r5)

/-- Snapshot decoder: the whole state; rejects trailing tokens, matching an
all-or-nothing load. -/
def decodeGraphState (l : List Int) : Option GraphState :=
  match decodeGraph l with
  | none => none
  | some (g, r1) =>
    match decOverlay r1 with
    | none => none
    | some (ps, r2) =>
      match decCamera r2 with
      | none => none
      | some (cam, r3) =>
        match r3 with
        | [] => some ⟨g, ps, cam⟩
        | _ => none

/-- The keys of an adjacency-index map. -/
def keys (m : List (Nat × List Nat)) : List Nat := m.map Prod.fst

/-- The identities of the live edge records. -/
def edgeIds (g : Graph) : List Nat := g.edges.map Edge.id

/-- The adjacency-index invariant of the spec, strengthened to an inductive
invariant of the engine: unique map keys, unique edge identities, identities
below the allocation counter, every index member names a live edge with the
key as its source (resp. target), and every live edge is a member of the
index entries of its own source and target. -/
def Inv (g : Graph) : Prop :=
  (keys g.source_to_edges).Nodup ∧
  (keys g.target_to_edges).Nodup ∧
  (edgeIds g).Nodup ∧
  (∀ e ∈ g.edges, e.id < g.nextId) ∧
  (∀ p ∈ g.source_to_edges, ∀ x ∈ p.2, ∃ e ∈ g.edges, e.id = x ∧ e.source = p.1) ∧
  (∀ p ∈ g.target_to_edges, ∀ x ∈ p.2, ∃ e ∈ g.edges, e.id = x ∧ e.target = p.1) ∧
  (∀ e ∈ g.edges, e.id ∈ mlook g.source_to_edges e.source ∧
      e.id ∈ mlook g.target_to_edges e.target) ∧
  (∀ n ∈ g.nodes, n < g.nextId) ∧
  (∀ e ∈ g.edges, e.source < e.id ∧ e.target < e.id) ∧
  (∀ p ∈ g.source_to_edges, p.2.Nodup) ∧
  (∀ p ∈ g.target_to_edges, p.2.Nodup)

instance (g : Graph) : Decidable (Inv g) := by
  unfold Inv
  infer_instance

/-- The transitive outgoing-dependency relation of the cascade: y depends on
x when some edge with source x has identity y, or some edge whose source
already depends on x has identity y.  This is the "depends on, following the
source direction" closure the corrected cascade statement quantifies over. -/
inductive DependsOn (g : Graph) (x : Nat) : Nat → Prop where
  | direct {c : Edge} : c ∈ g.edges → c.source = x → DependsOn g x c.id
  | step {y : Nat} {c : Edge} :
      DependsOn g x y → c ∈ g.edges → c.source = y → DependsOn g x c.id

/-- Between a state a and a later state b of the same removal, every edge of
a that has died had all its a-dependents die with it. -/
def DeadClosed (a b : Graph) : Prop :=
  ∀ u, u ∈ edgeIds a → u ∉ edgeIds b → ∀ y, DependsOn a u y → y ∉ edgeIds b

/-- Removal only shrinks a graph: the allocation counter and node table are
untouched, and the edge table, both index maps (entry-wise) and their key
lists only lose elements. -/
structure Shrink (g r : Graph) : Prop where
  nextId_eq : r.nextId = g.nextId
  nodes_eq : r.nodes = g.nodes
  edges_sub : r.edges.Sublist g.edges
  slook_sub : ∀ k, (mlook r.source_to_edges k).Sublist (mlook g.source_to_edges k)
  tlook_sub : ∀ k, (mlook r.target_to_edges k).Sublist (mlook g.target_to_edges k)
  skeys_sub : (keys r.source_to_edges).Sublist (keys g.source_to_edges)
  tkeys_sub : (keys r.target_to_edges).Sublist (keys g.target_to_edges)

/-- Graph states reachable through the public mutators of the engine
(Graph::new, add_node, add_edge, remove_node, remove_edge, and the dispatch
GraphState::remove_element performs on the graph). -/
inductive Reachable : Graph → Prop where
  | new : Reachable Graph.new
  | add_node {g : Graph} : Reachable g → Reachable (g.add_node).1
  | add_edge {g : Graph} (s t : Nat) : Reachable g → Reachable ((g.add_edge s t).1)
  | remove_node {g : Graph} (id : Nat) : Reachable g → Reachable ((g.remove_node id).1)
  | remove_edge {g : Graph} (id : Nat) : Reachable g → Reachable ((g.remove_edge id).1)
  | remove_element {g : Graph} (id : Nat) : Reachable g → Reachable (removeElementG g id)

/-- Graph states reachable without any removal: Graph::new, add_node and
add_edge only. -/
inductive ReachableNR : Graph → Prop where
  | new : ReachableNR Graph.new
  | add_node {g : Graph} : ReachableNR g → ReachableNR (g.add_node).1
  | add_edge {g : Graph} (s t : Nat) : ReachableNR g → ReachableNR ((g.add_edge s t).1)

/-- Nodes 0, 1, the edge 2 = (0 → 1) and the edge-to-edge 3 = (2 → 1). -/
def gC8 : Graph := (gE1.add_edge 2 1).1

/-- The C8 scenario state: the graph gC8, with only the position of node 1
known (at q); the other positions are written by the move itself. -/
def stC8 (q : Pos2) : GraphState := ⟨gC8, [(1, q)], Camera.new⟩

/-- The overlay effect of one dequeue of update_positions_recursive, named
for the proofs (the graph and camera never change): when curr owns an edge
record and both endpoint positions are known, the midpoint is written at
curr; otherwise the overlay is untouched. -/
def upStep (g : Graph) (pos : List (Nat × Pos2)) (curr : Nat) :
    List (Nat × Pos2) :=
  match g.get_edge curr with
  | some e =>
    match pLook pos e.source, pLook pos e.target with
    | some a, some b => pInsert pos curr (mid a b)
    | _, _ => pos
  | none => pos

/-- Traversal degree of an identity: how many neighbours its dequeue
enqueues (live outgoing plus live incoming edges). -/
def degS (g : Graph) (x : Nat) : Nat :=
  (g.get_outgoing_edges x).length + (g.get_incoming_edges x).length

/-- Total traversal degree of the not-yet-visited identities of l: the
enqueues the traversal may still perform. -/
def degSum (g : Graph) (l visited : List Nat) : Nat :=
  ((l.filter (fun x => x ∉ visited)).map (degS g)).sum

theorem mem_of_mem_mlook {m : List (Nat × List Nat)} {k x : Nat}
    (h : x ∈ mlook m k) : ∃ p ∈ m, p.1 = k ∧ x ∈ p.2 := by
  induction m with
  | nil => simp [mlook] at h
  | cons p t ih =>
    by_cases hk : p.1 = k
    · rw [mlook, if_pos hk] at h
      exact ⟨p, List.mem_cons_self p t, hk, h⟩
    · rw [mlook, if_neg hk] at h
      obtain ⟨q, hq, hqk, hqx⟩ := ih h
      exact ⟨q, List.mem_cons_of_mem p hq, hqk, hqx⟩

theorem mlook_eq_nil_of_not_mem_keys {m : List (Nat × List Nat)} {k : Nat}
    (h : k ∉ keys m) : mlook m k = [] := by
  induction m with
  | nil => rfl
  | cons p t ih =>
    simp only [keys, List.map_cons, List.mem_cons, not_or] at h
    rw [mlook, if_neg (fun hk => h.1 hk.symm)]
    exact ih (fun ht => h.2 (by simpa [keys] using ht))

theorem mem_sAdd {l : List Nat} {x y : Nat} : y ∈ sAdd l x ↔ y ∈ l ∨ y = x := by
  by_cases h : x ∈ l
  · simp only [sAdd, if_pos h]
    constructor
    · exact Or.inl
    · rintro (hy | rfl)
      · exact hy
      · exact h
  · simp [sAdd, if_neg h]

theorem mlook_mInsert (m : List (Nat × List Nat)) (k x k' : Nat) :
    mlook (mInsert m k x) k' =
      if k' = k then sAdd (mlook m k) x else mlook m k' := by
  induction m with
  | nil =>
    by_cases hk : k' = k
    · subst hk; simp [mInsert, mlook, sAdd]
    · simp [mInsert, mlook, hk, Ne.symm hk]
  | cons p t ih =>
    by_cases hp : p.1 = k
    · rw [mInsert, if_pos hp]
      by_cases hk : k' = k
      · subst hk; simp [mlook, hp]
      · have hpk : ¬p.1 = k' := by omega
        simp [mlook, hpk, hk]
    · rw [mInsert, if_neg hp]
      by_cases hpk : p.1 = k'
      · have hk : ¬k' = k := by omega
        simp [mlook, hpk, hk]
      · simp [mlook, hpk, ih, hp]

theorem keys_mInsert_subset (m : List (Nat × List Nat)) (k x : Nat) :
    keys (mInsert m k x) ⊆ k :: keys m := by
  induction m with
  | nil => simp [mInsert, keys]
  | cons p t ih =>
    by_cases hp : p.1 = k
    · rw [mInsert, if_pos hp]
      simp only [keys, List.map_cons]
      intro a ha
      rcases List.mem_cons.1 ha with rfl | ha
      · exact List.mem_cons.2 (Or.inl hp)
      · exact List.mem_cons.2 (Or.inr (List.mem_cons.2 (Or.inr ha)))
    · rw [mInsert, if_neg hp]
      simp only [keys, List.map_cons]
      intro a ha
      rcases List.mem_cons.1 ha with rfl | ha
      · exact List.mem_cons.2 (Or.inr (List.mem_cons.2 (Or.inl rfl)))
      · rcases List.mem_cons.1 (ih ha) with rfl | ha
        · exact List.mem_cons.2 (Or.inl rfl)
        · exact List.mem_cons.2 (Or.inr (List.mem_cons.2 (Or.inr ha)))

theorem nodup_keys_mInsert {m : List (Nat × List Nat)}
    (h : (keys m).Nodup) (k x : Nat) : (keys (mInsert m k x)).Nodup := by
  induction m with
  | nil => simp [mInsert, keys]
  | cons p t ih =>
    simp only [keys, List.map_cons, List.nodup_cons] at h
    by_cases hp : p.1 = k
    · rw [mInsert, if_pos hp]
      simpa [keys] using h
    · rw [mInsert, if_neg hp]
      simp only [keys, List.map_cons, List.nodup_cons]
      refine ⟨fun hmem => ?_, ih h.2⟩
      rcases List.mem_cons.1 (keys_mInsert_subset t k x hmem) with rfl | hmem
      · exact hp rfl
      · exact h.1 hmem

theorem mem_mInsert {m : List (Nat × List Nat)} {k x : Nat}
    {q : Nat × List Nat} (h : q ∈ mInsert m k x) :
    q ∈ m ∨ (∃ p ∈ m, p.1 = k ∧ q = (p.1, sAdd p.2 x)) ∨ q = (k, [x]) := by
  induction m with
  | nil =>
    simp only [mInsert, List.mem_singleton] at h
    exact Or.inr (Or.inr h)
  | cons p t ih =>
    by_cases hp : p.1 = k
    · rw [mInsert, if_pos hp] at h
      rcases List.mem_cons.1 h with rfl | h
      · exact Or.inr (Or.inl ⟨p, List.mem_cons_self p t, hp, rfl⟩)
      · exact Or.inl (List.mem_cons_of_mem p h)
    · rw [mInsert, if_neg hp] at h
      rcases List.mem_cons.1 h with rfl | h
      · exact Or.inl (List.mem_cons_self q t)
      · rcases ih h with h | ⟨p0, hp0, hk0, rfl⟩ | rfl
        · exact Or.inl (List.mem_cons_of_mem p h)
        · exact Or.inr (Or.inl ⟨p0, List.mem_cons_of_mem p hp0, hk0, rfl⟩)
        · exact Or.inr (Or.inr rfl)

theorem keys_mDetach_sublist (m : List (Nat × List Nat)) (k x : Nat) :
    (keys (mDetach m k x)).Sublist (keys m) := by
  induction m with
  | nil => simp [mDetach]
  | cons p t ih =>
    by_cases hp : p.1 = k
    · rw [mDetach, if_pos hp]
      by_cases he : (p.2.filter (fun y => y ≠ x)).isEmpty
      · rw [if_pos he]
        simp only [keys, List.map_cons]
        exact List.sublist_cons_self p.1 (List.map Prod.fst t)
      · rw [if_neg he]
        simp only [keys, List.map_cons]
        exact List.Sublist.cons₂ p.1 (List.Sublist.refl _)
    · rw [mDetach, if_neg hp]
      simp only [keys, List.map_cons]
      exact List.Sublist.cons₂ p.1 ih

theorem mem_mDetach {m : List (Nat × List Nat)} {k x : Nat}
    {q : Nat × List Nat} (h : q ∈ mDetach m k x) :
    q ∈ m ∨ ∃ p ∈ m, p.1 = k ∧ q = (p.1, p.2.filter (fun y => y ≠ x)) := by
  induction m with
  | nil => simp [mDetach] at h
  | cons p t ih =>
    by_cases hp : p.1 = k
    · rw [mDetach, if_pos hp] at h
      by_cases he : (p.2.filter (fun y => y ≠ x)).isEmpty
      · simp only [he, if_pos] at h
        exact Or.inl (List.mem_cons_of_mem p h)
      · simp only [he, Bool.false_eq_true, if_neg, not_false_iff] at h
        rcases List.mem_cons.1 h with rfl | h
        · exact Or.inr ⟨p, List.mem_cons_self p t, hp, rfl⟩
        · exact Or.inl (List.mem_cons_of_mem p h)
    · rw [mDetach, if_neg hp] at h
      rcases List.mem_cons.1 h with rfl | h
      · exact Or.inl (List.mem_cons_self q t)
      · rcases ih h with h | ⟨p0, hp0, hk0, rfl⟩
        · exact Or.inl (List.mem_cons_of_mem p h)
        · exact Or.inr ⟨p0, List.mem_cons_of_mem p hp0, hk0, rfl⟩

theorem mlook_mDetach {m : List (Nat × List Nat)}
    (h : (keys m).Nodup) (k x k' : Nat) :
    mlook (mDetach m k x) k' =
      if k' = k then (mlook m k).filter (fun y => y ≠ x) else mlook m k' := by
  induction m with
  | nil => by_cases hk : k' = k <;> simp [mDetach, mlook, hk]
  | cons p t ih =>
    simp only [keys, List.map_cons, List.nodup_cons] at h
    by_cases hp : p.1 = k
    · rw [mDetach, if_pos hp]
      by_cases he : (p.2.filter (fun y => y ≠ x)).isEmpty
      · simp only [he, if_pos]
        by_cases hk : k' = k
        · subst hk
          rw [mlook_eq_nil_of_not_mem_keys (by rw [← hp]; exact h.1), if_pos rfl,
            mlook, if_pos hp, List.isEmpty_iff.1 he]
        · rw [if_neg hk, mlook, if_neg (by omega)]
      · simp only [he, Bool.false_eq_true, if_neg, not_false_iff]
        by_cases hk : k' = k
        · subst hk
          rw [mlook, if_pos hp, if_pos rfl, mlook, if_pos hp]
        · rw [mlook, if_neg (by omega), if_neg hk, mlook, if_neg (by omega)]
    · rw [mDetach, if_neg hp]
      by_cases hpk : p.1 = k'
      · have hk : ¬k' = k := by omega
        simp [mlook, hpk, hk]
      · simp [mlook, hpk, hp, ih h.2]

theorem keys_mDrop_sublist (m : List (Nat × List Nat)) (k : Nat) :
    (keys (mDrop m k)).Sublist (keys m) := by
  induction m with
  | nil => simp [mDrop]
  | cons p t ih =>
    by_cases hp : p.1 = k
    · rw [mDrop, if_pos hp]
      simp only [keys, List.map_cons]
      exact (List.Sublist.refl _).cons p.1
    · rw [mDrop, if_neg hp]
      simp only [keys, List.map_cons]
      exact List.Sublist.cons₂ p.1 ih

theorem mem_mDrop {m : List (Nat × List Nat)} {k : Nat}
    {q : Nat × List Nat} (h : q ∈ mDrop m k) : q ∈ m := by
  induction m with
  | nil => simp [mDrop] at h
  | cons p t ih =>
    by_cases hp : p.1 = k
    · rw [mDrop, if_pos hp] at h
      exact List.mem_cons_of_mem p h
    · rw [mDrop, if_neg hp] at h
      rcases List.mem_cons.1 h with rfl | h
      · exact List.mem_cons_self q t
      · exact List.mem_cons_of_mem p (ih h)

theorem mlook_mDrop {m : List (Nat × List Nat)}
    (h : (keys m).Nodup) (k k' : Nat) :
    mlook (mDrop m k) k' = if k' = k then [] else mlook m k' := by
  induction m with
  | nil => by_cases hk : k' = k <;> simp [mDrop, mlook, hk]
  | cons p t ih =>
    simp only [keys, List.map_cons, List.nodup_cons] at h
    by_cases hp : p.1 = k
    · rw [mDrop, if_pos hp]
      by_cases hk : k' = k
      · subst hk
        rw [if_pos rfl, mlook_eq_nil_of_not_mem_keys (by rw [← hp]; exact h.1)]
      · rw [if_neg hk, mlook, if_neg (by omega)]
    · rw [mDrop, if_neg hp]
      by_cases hpk : p.1 = k'
      · rw [mlook, if_pos hpk, if_neg (by omega), mlook, if_pos hpk]
      · rw [mlook, if_neg hpk, ih h.2, mlook, if_neg hpk]

theorem mem_edgeIds {g : Graph} {x : Nat} :
    x ∈ edgeIds g ↔ ∃ e ∈ g.edges, e.id = x := by
  simp [edgeIds]

theorem edge_unique {g : Graph} (hN : (edgeIds g).Nodup) {e1 e2 : Edge}
    (h1 : e1 ∈ g.edges) (h2 : e2 ∈ g.edges) (h : e1.id = e2.id) : e1 = e2 :=
  List.inj_on_of_nodup_map hN h1 h2 h

theorem find_edge_of_mem {g : Graph} {x : Nat} (h : x ∈ edgeIds g) :
    ∃ e, g.edges.find? (fun e2 => e2.id = x) = some e ∧ e ∈ g.edges ∧ e.id = x := by
  obtain ⟨e0, he0, hid⟩ := mem_edgeIds.1 h
  have hsome : (g.edges.find? (fun e2 => e2.id = x)).isSome := by
    rw [List.find?_isSome]
    exact ⟨e0, he0, by simp [hid]⟩
  obtain ⟨e, he⟩ := Option.isSome_iff_exists.1 hsome
  exact ⟨e, he, List.mem_of_find?_eq_some he, by simpa using List.find?_some he⟩

theorem find_edge_of_not_mem {g : Graph} {x : Nat} (h : x ∉ edgeIds g) :
    g.edges.find? (fun e2 => e2.id = x) = none := by
  rw [List.find?_eq_none]
  intro e he hex
  exact h (mem_edgeIds.2 ⟨e, he, by simpa using hex⟩)

/-- Both index maps have duplicate-free key lists. -/
def MKeysOk (g : Graph) : Prop :=
  (keys g.source_to_edges).Nodup ∧ (keys g.target_to_edges).Nodup

theorem Inv.mapKeysOk {g : Graph} (h : Inv g) : MKeysOk g := ⟨h.1, h.2.1⟩

theorem Inv.edgeNodup {g : Graph} (h : Inv g) : (edgeIds g).Nodup := h.2.2.1

theorem Inv.consA {g : Graph} (h : Inv g) :
    ∀ e ∈ g.edges, e.id ∈ mlook g.source_to_edges e.source ∧
      e.id ∈ mlook g.target_to_edges e.target := h.2.2.2.2.2.2.1

theorem Inv.nodeBound {g : Graph} (h : Inv g) :
    ∀ n ∈ g.nodes, n < g.nextId := h.2.2.2.2.2.2.2.1

theorem Inv.mono {g : Graph} (h : Inv g) :
    ∀ e ∈ g.edges, e.source < e.id ∧ e.target < e.id := h.2.2.2.2.2.2.2.2.1

theorem Inv.setS {g : Graph} (h : Inv g) :
    ∀ p ∈ g.source_to_edges, p.2.Nodup := h.2.2.2.2.2.2.2.2.2.1

theorem Inv.setT {g : Graph} (h : Inv g) :
    ∀ p ∈ g.target_to_edges, p.2.Nodup := h.2.2.2.2.2.2.2.2.2.2

theorem sAdd_nodup {l : List Nat} (h : l.Nodup) (x : Nat) :
    (sAdd l x).Nodup := by
  by_cases hx : x ∈ l
  · rw [sAdd, if_pos hx]; exact h
  · rw [sAdd, if_neg hx]
    simp [List.nodup_append, h, hx]

theorem consS_mlook {g : Graph} (hInv : Inv g) {k x : Nat}
    (h : x ∈ mlook g.source_to_edges k) :
    ∃ e ∈ g.edges, e.id = x ∧ e.source = k := by
  obtain ⟨p, hp, hpk, hx⟩ := mem_of_mem_mlook h
  subst hpk
  exact hInv.2.2.2.2.1 p hp x hx

theorem consT_mlook {g : Graph} (hInv : Inv g) {k x : Nat}
    (h : x ∈ mlook g.target_to_edges k) :
    ∃ e ∈ g.edges, e.id = x ∧ e.target = k := by
  obtain ⟨p, hp, hpk, hx⟩ := mem_of_mem_mlook h
  subst hpk
  exact hInv.2.2.2.2.2.1 p hp x hx

theorem Shrink.rfl (g : Graph) : Shrink g g :=
  ⟨Eq.refl _, Eq.refl _, List.Sublist.refl _, fun _ => List.Sublist.refl _,
   fun _ => List.Sublist.refl _, List.Sublist.refl _, List.Sublist.refl _⟩

theorem Shrink.trans {a b c : Graph} (h1 : Shrink a b) (h2 : Shrink b c) :
    Shrink a c :=
  ⟨h2.nextId_eq.trans h1.nextId_eq, h2.nodes_eq.trans h1.nodes_eq,
   h2.edges_sub.trans h1.edges_sub,
   fun k => (h2.slook_sub k).trans (h1.slook_sub k),
   fun k => (h2.tlook_sub k).trans (h1.tlook_sub k),
   h2.skeys_sub.trans h1.skeys_sub, h2.tkeys_sub.trans h1.tkeys_sub⟩

theorem Shrink.keysOk {g r : Graph} (h : Shrink g r) (hg : MKeysOk g) :
    MKeysOk r :=
  ⟨hg.1.sublist h.skeys_sub, hg.2.sublist h.tkeys_sub⟩

theorem foldl_preserve {β : Type} (P : Graph → Prop) (step : Graph → β → Graph)
    (h : ∀ g b, P g → P (step g b)) :
    ∀ (l : List β) (g : Graph), P g → P (l.foldl step g) := by
  intro l
  induction l with
  | nil => intro g hg; exact hg
  | cons b t ih => intro g hg; exact ih _ (h g b hg)

theorem foldl_shrink_chain {β : Type} (step : Graph → β → Graph)
    (hP : ∀ g b, MKeysOk g → Shrink g (step g b)) :
    ∀ (l : List β) (g : Graph), MKeysOk g → Shrink g (l.foldl step g) := by
  intro l
  induction l with
  | nil => intro g hg; exact Shrink.rfl g
  | cons b t ih =>
    intro g hg
    have h1 : Shrink g (step g b) := hP g b hg
    exact h1.trans (ih _ (h1.keysOk hg))

theorem mem_mDetach_nodup {m : List (Nat × List Nat)} {k x : Nat}
    {q : Nat × List Nat} (hnd : (keys m).Nodup) (h : q ∈ mDetach m k x) :
    (q ∈ m ∧ q.1 ≠ k) ∨
      ∃ p ∈ m, p.1 = k ∧ q = (p.1, p.2.filter (fun y => y ≠ x)) := by
  induction m with
  | nil => simp [mDetach] at h
  | cons p t ih =>
    simp only [keys, List.map_cons, List.nodup_cons] at hnd
    have hq_tail : ∀ q' : Nat × List Nat, q' ∈ t → p.1 = k → q'.1 ≠ k := by
      intro q' hq' hpk hq'k
      apply hnd.1
      have hmem : q'.1 ∈ List.map Prod.fst t := List.mem_map_of_mem Prod.fst hq'
      rw [hpk, ← hq'k]
      exact hmem
    by_cases hp : p.1 = k
    · rw [mDetach, if_pos hp] at h
      by_cases he : (p.2.filter (fun y => y ≠ x)).isEmpty
      · rw [if_pos he] at h
        exact Or.inl ⟨List.mem_cons_of_mem p h, hq_tail q h hp⟩
      · rw [if_neg he] at h
        rcases List.mem_cons.1 h with rfl | h
        · exact Or.inr ⟨p, List.mem_cons_self p t, hp, rfl⟩
        · exact Or.inl ⟨List.mem_cons_of_mem p h, hq_tail q h hp⟩
    · rw [mDetach, if_neg hp] at h
      rcases List.mem_cons.1 h with rfl | h
      · exact Or.inl ⟨List.mem_cons_self q t, hp⟩
      · rcases ih hnd.2 h with ⟨hq, hqk⟩ | ⟨p0, hp0, hk0, rfl⟩
        · exact Or.inl ⟨List.mem_cons_of_mem p hq, hqk⟩
        · exact Or.inr ⟨p0, List.mem_cons_of_mem p hp0, hk0, rfl⟩

theorem edgeIds_subset_of_sublist {g r : Graph}
    (h : r.edges.Sublist g.edges) : edgeIds r ⊆ edgeIds g :=
  (h.map Edge.id).subset

theorem remove_edge_fuel_none {fuel : Nat} {g : Graph} {id : Nat}
    (hfind : g.edges.find? (fun e2 => e2.id = id) = none) :
    Graph.remove_edge_fuel (fuel + 1) g id = (g, none) := by
  rw [Graph.remove_edge_fuel, hfind]

theorem remove_edge_fuel_some {fuel : Nat} {g : Graph} {id : Nat} {e : Edge}
    (hfind : g.edges.find? (fun e2 => e2.id = id) = some e) :
    (Graph.remove_edge_fuel (fuel + 1) g id).1 =
      { nextId := (removeChildren fuel g e.id).nextId,
        nodes := (removeChildren fuel g e.id).nodes,
        edges := (removeChildren fuel g e.id).edges.filter (fun e2 => e2.id ≠ id),
        source_to_edges :=
          mDetach (removeChildren fuel g e.id).source_to_edges e.source id,
        target_to_edges :=
          mDetach (removeChildren fuel g e.id).target_to_edges e.target id } := by
  rw [Graph.remove_edge_fuel, hfind]
  rfl

theorem remove_edge_fuel_shrink :
    ∀ (fuel : Nat) (g : Graph) (id : Nat), MKeysOk g →
      Shrink g (Graph.remove_edge_fuel fuel g id).1 := by
  intro fuel
  induction fuel with
  | zero => intro g id _; exact Shrink.rfl g
  | succ fuel ih =>
    intro g id hk
    cases hfind : g.edges.find? (fun e2 => e2.id = id) with
    | none => rw [remove_edge_fuel_none hfind]; exact Shrink.rfl g
    | some e =>
      rw [remove_edge_fuel_some hfind]
      have hsh1 : Shrink g (removeChildren fuel g e.id) :=
        foldl_shrink_chain _ (fun g' c h => ih g' c h) _ g hk
      have hk1 : MKeysOk (removeChildren fuel g e.id) := hsh1.keysOk hk
      refine hsh1.trans ⟨rfl, rfl, List.filter_sublist _, ?_, ?_,
        keys_mDetach_sublist _ _ _, keys_mDetach_sublist _ _ _⟩
      · intro k
        show (mlook (mDetach (removeChildren fuel g e.id).source_to_edges
          e.source id) k).Sublist _
        rw [mlook_mDetach hk1.1]
        by_cases hks : k = e.source
        · subst hks
          rw [if_pos rfl]
          exact List.filter_sublist _
        · rw [if_neg hks]
      · intro k
        show (mlook (mDetach (removeChildren fuel g e.id).target_to_edges
          e.target id) k).Sublist _
        rw [mlook_mDetach hk1.2]
        by_cases hkt : k = e.target
        · subst hkt
          rw [if_pos rfl]
          exact List.filter_sublist _
        · rw [if_neg hkt]

theorem remove_edge_fuel_inv :
    ∀ (fuel : Nat) (g : Graph) (id : Nat), Inv g →
      Inv (Graph.remove_edge_fuel fuel g id).1 := by
  intro fuel
  induction fuel with
  | zero => intro g id h; exact h
  | succ fuel ih =>
    intro g id hInv
    cases hfind : g.edges.find? (fun e2 => e2.id = id) with
    | none => rw [remove_edge_fuel_none hfind]; exact hInv
    | some e =>
      have he_mem : e ∈ g.edges := List.mem_of_find?_eq_some hfind
      have he_id : e.id = id := by simpa using List.find?_some hfind
      rw [remove_edge_fuel_some hfind]
      set g1 := removeChildren fuel g e.id with hg1
      have hInv1 : Inv g1 :=
        foldl_preserve Inv _ (fun g' c h => ih g' c h) _ g hInv
      have hsh1 : Shrink g g1 :=
        foldl_shrink_chain _ (fun g' c h => remove_edge_fuel_shrink fuel g' c h)
          _ g hInv.mapKeysOk
      obtain ⟨hS1, hT1, hN1, hB1, hcS1, hcT1, hA1, hNB1, hM1, hSS1, hST1⟩ :=
        hInv1
      refine ⟨?_, ?_, ?_, ?_, ?_, ?_, ?_, ?_, ?_, ?_, ?_⟩
      · show (keys (mDetach g1.source_to_edges e.source id)).Nodup
        exact hS1.sublist (keys_mDetach_sublist _ _ _)
      · show (keys (mDetach g1.target_to_edges e.target id)).Nodup
        exact hT1.sublist (keys_mDetach_sublist _ _ _)
      · show (List.map Edge.id (g1.edges.filter (fun e2 => e2.id ≠ id))).Nodup
        exact hN1.sublist ((List.filter_sublist _).map Edge.id)
      · intro e2 he2
        show e2.id < g1.nextId
        exact hB1 e2 (List.mem_of_mem_filter he2)
      · intro p hp x hx
        rcases mem_mDetach_nodup hS1 hp with ⟨hpm, hpk⟩ | ⟨p0, hp0, hk0, rfl⟩
        · obtain ⟨e', he', he'id, he'src⟩ := hcS1 p hpm x hx
          have he'ne : e'.id ≠ id := by
            intro hcontra
            have he'g : e' ∈ g.edges := hsh1.edges_sub.subset he'
            have heq : e' = e :=
              edge_unique hInv.2.2.1 he'g he_mem (by rw [hcontra, ← he_id])
            exact hpk (by rw [← he'src, heq])
          exact ⟨e', List.mem_filter.2 ⟨he', by simpa using he'ne⟩, he'id, he'src⟩
        · have hx' := List.mem_filter.1 hx
          obtain ⟨e', he', he'id, he'src⟩ := hcS1 p0 hp0 x hx'.1
          have hxne : x ≠ id := by simpa using hx'.2
          exact ⟨e', List.mem_filter.2 ⟨he', by simp [he'id, hxne]⟩, he'id,
            he'src⟩
      · intro p hp x hx
        rcases mem_mDetach_nodup hT1 hp with ⟨hpm, hpk⟩ | ⟨p0, hp0, hk0, rfl⟩
        · obtain ⟨e', he', he'id, he'tgt⟩ := hcT1 p hpm x hx
          have he'ne : e'.id ≠ id := by
            intro hcontra
            have he'g : e' ∈ g.edges := hsh1.edges_sub.subset he'
            have heq : e' = e :=
              edge_unique hInv.2.2.1 he'g he_mem (by rw [hcontra, ← he_id])
            exact hpk (by rw [← he'tgt, heq])
          exact ⟨e', List.mem_filter.2 ⟨he', by simpa using he'ne⟩, he'id, he'tgt⟩
        · have hx' := List.mem_filter.1 hx
          obtain ⟨e', he', he'id, he'tgt⟩ := hcT1 p0 hp0 x hx'.1
          have hxne : x ≠ id := by simpa using hx'.2
          exact ⟨e', List.mem_filter.2 ⟨he', by simp [he'id, hxne]⟩, he'id,
            he'tgt⟩
      · intro e2 he2
        have he2f := List.mem_filter.1 he2
        have he2g1 : e2 ∈ g1.edges := he2f.1
        have he2ne : e2.id ≠ id := by simpa using he2f.2
        obtain ⟨haS, haT⟩ := hA1 e2 he2g1
        constructor
        · show e2.id ∈ mlook (mDetach g1.source_to_edges e.source id) e2.source
          rw [mlook_mDetach hS1]
          by_cases hks : e2.source = e.source
          · rw [if_pos hks]
            refine List.mem_filter.2 ⟨?_, by simpa using he2ne⟩
            rw [hks] at haS
            exact haS
          · rw [if_neg hks]
            exact haS
        · show e2.id ∈ mlook (mDetach g1.target_to_edges e.target id) e2.target
          rw [mlook_mDetach hT1]
          by_cases hkt : e2.target = e.target
          · rw [if_pos hkt]
            refine List.mem_filter.2 ⟨?_, by simpa using he2ne⟩
            rw [hkt] at haT
            exact haT
          · rw [if_neg hkt]
            exact haT
      · intro n hn
        show n < g1.nextId
        exact hNB1 n hn
      · intro e2 he2
        exact hM1 e2 (List.mem_of_mem_filter he2)
      · intro pp hpp
        rcases mem_mDetach_nodup hS1 hpp with ⟨hpm, _⟩ | ⟨p0, hp0, _, rfl⟩
        · exact hSS1 pp hpm
        · exact (hSS1 p0 hp0).filter _
      · intro pp hpp
        rcases mem_mDetach_nodup hT1 hpp with ⟨hpm, _⟩ | ⟨p0, hp0, _, rfl⟩
        · exact hST1 pp hpm
        · exact (hST1 p0 hp0).filter _

theorem remove_edge_fuel_kill {fuel : Nat} {g : Graph} {x : Nat}
    (hInv : Inv g) (hx : x ∈ edgeIds g) :
    x ∉ edgeIds (Graph.remove_edge_fuel (fuel + 1) g x).1 ∧
    (∀ k, x ∉ mlook (Graph.remove_edge_fuel (fuel + 1) g x).1.source_to_edges k) ∧
    (∀ k, x ∉ mlook (Graph.remove_edge_fuel (fuel + 1) g x).1.target_to_edges k) := by
  obtain ⟨e, hfind, he_mem, he_id⟩ := find_edge_of_mem hx
  rw [remove_edge_fuel_some hfind]
  set g1 := removeChildren fuel g e.id with hg1
  have hInv1 : Inv g1 :=
    foldl_preserve Inv _ (fun g' c h => remove_edge_fuel_inv fuel g' c h) _ g hInv
  have hsh1 : Shrink g g1 :=
    foldl_shrink_chain _ (fun g' c h => remove_edge_fuel_shrink fuel g' c h)
      _ g hInv.mapKeysOk
  refine ⟨?_, ?_, ?_⟩
  · intro hmem
    obtain ⟨e2, he2, he2id⟩ := mem_edgeIds.1 hmem
    have hf := List.mem_filter.1 he2
    rw [he2id] at hf
    simp at hf
  · intro k hm0
    have hmem : x ∈ mlook (mDetach g1.source_to_edges e.source x) k := hm0
    rw [mlook_mDetach hInv1.1] at hmem
    by_cases hk : k = e.source
    · rw [if_pos hk] at hmem
      have := (List.mem_filter.1 hmem).2
      simp at this
    · rw [if_neg hk] at hmem
      obtain ⟨e2, he2, he2id, he2src⟩ := consS_mlook hInv1 hmem
      have he2g : e2 ∈ g.edges := hsh1.edges_sub.subset he2
      have heq : e2 = e :=
        edge_unique hInv.2.2.1 he2g he_mem (by rw [he2id, ← he_id])
      exact hk (by rw [← he2src, heq])
  · intro k hm0
    have hmem : x ∈ mlook (mDetach g1.target_to_edges e.target x) k := hm0
    rw [mlook_mDetach hInv1.2.1] at hmem
    by_cases hk : k = e.target
    · rw [if_pos hk] at hmem
      have := (List.mem_filter.1 hmem).2
      simp at this
    · rw [if_neg hk] at hmem
      obtain ⟨e2, he2, he2id, he2tgt⟩ := consT_mlook hInv1 hmem
      have he2g : e2 ∈ g.edges := hsh1.edges_sub.subset he2
      have heq : e2 = e :=
        edge_unique hInv.2.2.1 he2g he_mem (by rw [he2id, ← he_id])
      exact hk (by rw [← he2tgt, heq])

theorem remove_edge_inv {g : Graph} {id : Nat} (h : Inv g) :
    Inv (g.remove_edge id).1 :=
  remove_edge_fuel_inv _ g id h

theorem remove_edge_shrink {g : Graph} {id : Nat} (h : MKeysOk g) :
    Shrink g (g.remove_edge id).1 :=
  remove_edge_fuel_shrink _ g id h

theorem remove_edge_kill {g : Graph} {x : Nat}
    (hInv : Inv g) (hx : x ∈ edgeIds g) :
    x ∉ edgeIds (g.remove_edge x).1 ∧
    (∀ k, x ∉ mlook (g.remove_edge x).1.source_to_edges k) ∧
    (∀ k, x ∉ mlook (g.remove_edge x).1.target_to_edges k) :=
  remove_edge_fuel_kill hInv hx

theorem remove_edge_dead {g : Graph} {x : Nat} (hx : x ∉ edgeIds g) :
    Graph.remove_edge g x = (g, none) := by
  unfold Graph.remove_edge
  exact remove_edge_fuel_none (find_edge_of_not_mem hx)

theorem fold_kills :
    ∀ (l : List Nat) (g : Graph), Inv g → ∀ x ∈ l,
      x ∉ edgeIds (l.foldl (fun acc eid => (Graph.remove_edge acc eid).1) g) := by
  intro l
  induction l with
  | nil => intro g _ x hx; simp at hx
  | cons c t ih =>
    intro g hInv x hx
    have hInv' : Inv (g.remove_edge c).1 := remove_edge_inv hInv
    rw [List.foldl_cons]
    rcases List.mem_cons.1 hx with rfl | hx
    · have hdead : x ∉ edgeIds (g.remove_edge x).1 := by
        by_cases hlive : x ∈ edgeIds g
        · exact (remove_edge_kill hInv hlive).1
        · rw [remove_edge_dead hlive]
          exact hlive
      have hsh : Shrink (g.remove_edge x).1
          (t.foldl (fun acc eid => (Graph.remove_edge acc eid).1)
            (g.remove_edge x).1) :=
        foldl_shrink_chain _ (fun g' eid hk => remove_edge_shrink hk) t _
          hInv'.mapKeysOk
      intro hmem
      exact hdead (edgeIds_subset_of_sublist hsh.edges_sub hmem)
    · exact ih _ hInv' x hx

theorem fold_kills_fuel (m : Nat) :
    ∀ (l : List Nat) (g : Graph), Inv g → ∀ x ∈ l,
      x ∉ edgeIds
        (l.foldl (fun acc c => (Graph.remove_edge_fuel (m + 1) acc c).1) g) := by
  intro l
  induction l with
  | nil => intro g _ x hx; simp at hx
  | cons c t ih =>
    intro g hInv x hx
    have hInv' : Inv (Graph.remove_edge_fuel (m + 1) g c).1 :=
      remove_edge_fuel_inv (m + 1) g c hInv
    rw [List.foldl_cons]
    rcases List.mem_cons.1 hx with rfl | hx
    · have hdead : x ∉ edgeIds (Graph.remove_edge_fuel (m + 1) g x).1 := by
        by_cases hlive : x ∈ edgeIds g
        · exact (remove_edge_fuel_kill hInv hlive).1
        · rw [remove_edge_fuel_none (find_edge_of_not_mem hlive)]
          exact hlive
      have hsh : Shrink (Graph.remove_edge_fuel (m + 1) g x).1
          (t.foldl (fun acc c => (Graph.remove_edge_fuel (m + 1) acc c).1)
            (Graph.remove_edge_fuel (m + 1) g x).1) :=
        foldl_shrink_chain _
          (fun g' c' hk => remove_edge_fuel_shrink (m + 1) g' c' hk) t _
          hInv'.mapKeysOk
      intro hmem
      exact hdead (edgeIds_subset_of_sublist hsh.edges_sub hmem)
    · exact ih _ hInv' x hx

theorem remove_node_inv {g : Graph} {id : Nat} (hInv : Inv g) :
    Inv (g.remove_node id).1 := by
  by_cases hid : id ∈ g.nodes
  · have heq : (Graph.remove_node g id).1 =
        (let g1 := (mlook g.source_to_edges id ++ mlook g.target_to_edges id).foldl
          (fun acc eid => (Graph.remove_edge acc eid).1) g
         { nextId := g1.nextId,
           nodes := g1.nodes.filter (fun n => n ≠ id),
           edges := g1.edges,
           source_to_edges := mDrop g1.source_to_edges id,
           target_to_edges := mDrop g1.target_to_edges id }) := by
      unfold Graph.remove_node
      rw [if_pos hid]
    rw [heq]
    set toRemove := mlook g.source_to_edges id ++ mlook g.target_to_edges id
      with htr
    set g1 := toRemove.foldl (fun acc eid => (Graph.remove_edge acc eid).1) g
      with hg1
    have hInv1 : Inv g1 :=
      foldl_preserve Inv _ (fun g' eid h => remove_edge_inv h) toRemove g hInv
    have hsh1 : Shrink g g1 :=
      foldl_shrink_chain _ (fun g' eid hk => remove_edge_shrink hk) toRemove g
        hInv.mapKeysOk
    have hkill : ∀ x ∈ toRemove, x ∉ edgeIds g1 := fold_kills toRemove g hInv
    have hnosrc : ∀ e2 ∈ g1.edges, e2.source ≠ id := by
      intro e2 he2 hcontra
      have hmem : e2.id ∈ mlook g1.source_to_edges e2.source :=
        (hInv1.consA e2 he2).1
      rw [hcontra] at hmem
      have hging : e2.id ∈ mlook g.source_to_edges id :=
        (hsh1.slook_sub id).subset hmem
      exact hkill e2.id (List.mem_append.2 (Or.inl hging))
        (mem_edgeIds.2 ⟨e2, he2, rfl⟩)
    have hnotgt : ∀ e2 ∈ g1.edges, e2.target ≠ id := by
      intro e2 he2 hcontra
      have hmem : e2.id ∈ mlook g1.target_to_edges e2.target :=
        (hInv1.consA e2 he2).2
      rw [hcontra] at hmem
      have hging : e2.id ∈ mlook g.target_to_edges id :=
        (hsh1.tlook_sub id).subset hmem
      exact hkill e2.id (List.mem_append.2 (Or.inr hging))
        (mem_edgeIds.2 ⟨e2, he2, rfl⟩)
    obtain ⟨hS1, hT1, hN1, hB1, hcS1, hcT1, hA1, hNB1, hM1, hSS1, hST1⟩ :=
      hInv1
    refine ⟨?_, ?_, hN1, hB1, ?_, ?_, ?_, ?_, hM1, ?_, ?_⟩
    · exact hS1.sublist (keys_mDrop_sublist _ _)
    · exact hT1.sublist (keys_mDrop_sublist _ _)
    · intro p hp x hx
      exact hcS1 p (mem_mDrop hp) x hx
    · intro p hp x hx
      exact hcT1 p (mem_mDrop hp) x hx
    · intro e2 he2
      obtain ⟨haS, haT⟩ := hA1 e2 he2
      constructor
      · show e2.id ∈ mlook (mDrop g1.source_to_edges id) e2.source
        rw [mlook_mDrop hS1, if_neg (hnosrc e2 he2)]
        exact haS
      · show e2.id ∈ mlook (mDrop g1.target_to_edges id) e2.target
        rw [mlook_mDrop hT1, if_neg (hnotgt e2 he2)]
        exact haT
    · intro n hn
      exact hNB1 n (List.mem_of_mem_filter hn)
    · intro pp hpp
      exact hSS1 pp (mem_mDrop hpp)
    · intro pp hpp
      exact hST1 pp (mem_mDrop hpp)
  · have heq : Graph.remove_node g id = (g, none) := by
      unfold Graph.remove_node
      rw [if_neg hid]
    rw [heq]
    exact hInv

theorem add_node_inv {g : Graph} (hInv : Inv g) : Inv (g.add_node).1 := by
  obtain ⟨hS, hT, hN, hB, hcS, hcT, hA, hNB, hM, hSS, hST⟩ := hInv
  refine ⟨hS, hT, hN, fun e he => Nat.lt_succ_of_lt (hB e he), hcS, hcT, hA,
    ?_, hM, hSS, hST⟩
  intro n hn
  rcases List.mem_append.1 hn with h | h
  · exact Nat.lt_succ_of_lt (hNB n h)
  · rw [List.mem_singleton.1 h]
    exact Nat.lt_succ_self _

theorem add_edge_inv {g : Graph} {s t : Nat} (hInv : Inv g) :
    Inv (g.add_edge s t).1 := by
  by_cases hc : s ∈ g.nodes ∧ t ∈ g.nodes
  · have heq : (Graph.add_edge g s t).1 =
        { nextId := g.nextId + 1,
          nodes := g.nodes ++ [g.nextId],
          edges := g.edges ++ [⟨g.nextId, s, t⟩],
          source_to_edges := mInsert g.source_to_edges s g.nextId,
          target_to_edges := mInsert g.target_to_edges t g.nextId } := by
      unfold Graph.add_edge
      rw [if_pos hc]
    rw [heq]
    obtain ⟨hS, hT, hN, hB, hcS, hcT, hA, hNB, hM, hSS, hST⟩ := hInv
    have hfreshE : g.nextId ∉ edgeIds g := by
      intro hmem
      obtain ⟨e, he, heid⟩ := mem_edgeIds.1 hmem
      have := hB e he
      omega
    refine ⟨?_, ?_, ?_, ?_, ?_, ?_, ?_, ?_, ?_, ?_, ?_⟩
    · exact nodup_keys_mInsert hS s g.nextId
    · exact nodup_keys_mInsert hT t g.nextId
    · show (List.map Edge.id (g.edges ++ [⟨g.nextId, s, t⟩])).Nodup
      rw [List.map_append]
      refine List.Nodup.append hN (List.nodup_singleton _) ?_
      intro a ha hb
      rw [List.mem_singleton.1 hb] at ha
      exact hfreshE ha
    · intro e2 he2
      rcases List.mem_append.1 he2 with h | h
      · exact Nat.lt_succ_of_lt (hB e2 h)
      · rw [List.mem_singleton.1 h]
        exact Nat.lt_succ_self _
    · intro p hp x hx
      rcases mem_mInsert hp with h | ⟨p0, hp0, hk0, rfl⟩ | rfl
      · obtain ⟨e', he', he'id, he'src⟩ := hcS p h x hx
        exact ⟨e', List.mem_append.2 (Or.inl he'), he'id, he'src⟩
      · rcases mem_sAdd.1 hx with hxo | rfl
        · obtain ⟨e', he', he'id, he'src⟩ := hcS p0 hp0 x hxo
          exact ⟨e', List.mem_append.2 (Or.inl he'), he'id, he'src⟩
        · exact ⟨⟨g.nextId, s, t⟩,
            List.mem_append.2 (Or.inr (List.mem_singleton.2 rfl)), rfl, hk0.symm⟩
      · rcases List.mem_singleton.1 hx with rfl
        exact ⟨⟨g.nextId, s, t⟩,
          List.mem_append.2 (Or.inr (List.mem_singleton.2 rfl)), rfl, rfl⟩
    · intro p hp x hx
      rcases mem_mInsert hp with h | ⟨p0, hp0, hk0, rfl⟩ | rfl
      · obtain ⟨e', he', he'id, he'tgt⟩ := hcT p h x hx
        exact ⟨e', List.mem_append.2 (Or.inl he'), he'id, he'tgt⟩
      · rcases mem_sAdd.1 hx with hxo | rfl
        · obtain ⟨e', he', he'id, he'tgt⟩ := hcT p0 hp0 x hxo
          exact ⟨e', List.mem_append.2 (Or.inl he'), he'id, he'tgt⟩
        · exact ⟨⟨g.nextId, s, t⟩,
            List.mem_append.2 (Or.inr (List.mem_singleton.2 rfl)), rfl, hk0.symm⟩
      · rcases List.mem_singleton.1 hx with rfl
        exact ⟨⟨g.nextId, s, t⟩,
          List.mem_append.2 (Or.inr (List.mem_singleton.2 rfl)), rfl, rfl⟩
    · intro e2 he2
      rcases List.mem_append.1 he2 with h | h
      · obtain ⟨haS, haT⟩ := hA e2 h
        constructor
        · show e2.id ∈ mlook (mInsert g.source_to_edges s g.nextId) e2.source
          rw [mlook_mInsert]
          by_cases hks : e2.source = s
          · rw [if_pos hks]
            rw [hks] at haS
            exact mem_sAdd.2 (Or.inl haS)
          · rw [if_neg hks]
            exact haS
        · show e2.id ∈ mlook (mInsert g.target_to_edges t g.nextId) e2.target
          rw [mlook_mInsert]
          by_cases hkt : e2.target = t
          · rw [if_pos hkt]
            rw [hkt] at haT
            exact mem_sAdd.2 (Or.inl haT)
          · rw [if_neg hkt]
            exact haT
      · rw [List.mem_singleton.1 h]
        constructor
        · show (Edge.mk g.nextId s t).id ∈
            mlook (mInsert g.source_to_edges s g.nextId) (Edge.mk g.nextId s t).source
          rw [mlook_mInsert, if_pos rfl]
          exact mem_sAdd.2 (Or.inr rfl)
        · show (Edge.mk g.nextId s t).id ∈
            mlook (mInsert g.target_to_edges t g.nextId) (Edge.mk g.nextId s t).target
          rw [mlook_mInsert, if_pos rfl]
          exact mem_sAdd.2 (Or.inr rfl)
    · intro n hn
      rcases List.mem_append.1 hn with h | h
      · exact Nat.lt_succ_of_lt (hNB n h)
      · rw [List.mem_singleton.1 h]
        exact Nat.lt_succ_self _
    · intro e2 he2
      rcases List.mem_append.1 he2 with h | h
      · exact hM e2 h
      · rw [List.mem_singleton.1 h]
        exact ⟨hNB s hc.1, hNB t hc.2⟩
    · intro pp hpp
      rcases mem_mInsert hpp with h | ⟨p0, hp0, hk0, rfl⟩ | rfl
      · exact hSS pp h
      · exact sAdd_nodup (hSS p0 hp0) _
      · exact List.nodup_singleton _
    · intro pp hpp
      rcases mem_mInsert hpp with h | ⟨p0, hp0, hk0, rfl⟩ | rfl
      · exact hST pp h
      · exact sAdd_nodup (hST p0 hp0) _
      · exact List.nodup_singleton _
  · have heq : Graph.add_edge g s t = (g, none) := by
      unfold Graph.add_edge
      rw [if_neg hc]
    rw [heq]
    exact hInv

theorem removeElementG_inv {g : Graph} {id : Nat} (hInv : Inv g) :
    Inv (removeElementG g id) := by
  unfold removeElementG
  by_cases hn : (g.get_node id).isSome
  · rw [if_pos hn]
    exact remove_node_inv hInv
  · rw [if_neg hn]
    by_cases he : (g.get_edge id).isSome
    · rw [if_pos he]
      exact remove_edge_inv hInv
    · rw [if_neg he]
      exact hInv

theorem new_inv : Inv Graph.new := by decide

theorem reachable_inv {g : Graph} (h : Reachable g) : Inv g := by
  induction h with
  | new => exact new_inv
  | add_node _ ih => exact add_node_inv ih
  | add_edge s t _ ih => exact add_edge_inv ih
  | remove_node id _ ih => exact remove_node_inv ih
  | remove_edge id _ ih => exact remove_edge_inv ih
  | remove_element id _ ih => exact removeElementG_inv ih

theorem DependsOn.mem_ids {g : Graph} {x y : Nat} (h : DependsOn g x y) :
    y ∈ edgeIds g := by
  induction h with
  | direct hc _ => exact mem_edgeIds.2 ⟨_, hc, rfl⟩
  | step _ hc _ _ => exact mem_edgeIds.2 ⟨_, hc, rfl⟩

theorem DependsOn.mono_edges {g g' : Graph}
    (hsub : ∀ e, e ∈ g.edges → e ∈ g'.edges) {x y : Nat}
    (h : DependsOn g x y) : DependsOn g' x y := by
  induction h with
  | direct hc hs => exact DependsOn.direct (hsub _ hc) hs
  | step _ hc hs ih => exact DependsOn.step ih (hsub _ hc) hs

theorem DependsOn.chain {g : Graph} {x y z : Nat}
    (h1 : DependsOn g x y) (h2 : DependsOn g y z) : DependsOn g x z := by
  induction h2 with
  | direct hc hs => exact DependsOn.step h1 hc hs
  | step _ hc hs ih => exact DependsOn.step ih hc hs

theorem dependsOn_decomp {g : Graph} {x y : Nat} (h : DependsOn g x y) :
    ∃ d ∈ g.edges, d.source = x ∧ (y = d.id ∨ DependsOn g d.id y) := by
  induction h with
  | direct hc hs => exact ⟨_, hc, hs, Or.inl rfl⟩
  | step h0 hc hs ih =>
    obtain ⟨d, hd, hds, hor⟩ := ih
    rcases hor with rfl | hdep
    · exact ⟨d, hd, hds, Or.inr (DependsOn.direct hc hs)⟩
    · exact ⟨d, hd, hds, Or.inr (DependsOn.step hdep hc hs)⟩

theorem id_not_mem_of_record_dead {a b : Graph} (hnd : (edgeIds a).Nodup)
    (hsub : ∀ e, e ∈ b.edges → e ∈ a.edges) {c : Edge}
    (hca : c ∈ a.edges) (hcb : c ∉ b.edges) : c.id ∉ edgeIds b := by
  intro hmem
  obtain ⟨c2, hc2, hcid⟩ := mem_edgeIds.1 hmem
  have heq : c2 = c := edge_unique hnd (hsub _ hc2) hca hcid
  exact hcb (heq ▸ hc2)

theorem dependsOn_transfer {a b : Graph} (hnd : (edgeIds a).Nodup)
    (hsub : ∀ e, e ∈ b.edges → e ∈ a.edges) (hdc : DeadClosed a b)
    {w y : Nat} (h : DependsOn a w y) : DependsOn b w y ∨ y ∉ edgeIds b := by
  induction h with
  | direct hc hs =>
    rename_i c
    by_cases hcb : c ∈ b.edges
    · exact Or.inl (DependsOn.direct hcb hs)
    · exact Or.inr (id_not_mem_of_record_dead hnd hsub hc hcb)
  | step h0 hc hs ih =>
    rename_i y0 c
    rcases ih with hb | hdead
    · by_cases hcb : c ∈ b.edges
      · exact Or.inl (DependsOn.step hb hcb hs)
      · exact Or.inr (id_not_mem_of_record_dead hnd hsub hc hcb)
    · exact Or.inr (hdc y0 h0.mem_ids hdead c.id (DependsOn.direct hc hs))

theorem only_deps_fold (fuel : Nat)
    (hOD : ∀ (b : Graph) (w u : Nat), Inv b → u ∈ edgeIds b →
      u ∉ edgeIds (Graph.remove_edge_fuel fuel b w).1 →
      u = w ∨ DependsOn b w u) :
    ∀ (l : List Nat) (b0 b : Graph) (w : Nat), Inv b →
      (∀ e, e ∈ b.edges → e ∈ b0.edges) →
      (∀ w2 ∈ l, DependsOn b0 w w2) →
      ∀ u, u ∈ edgeIds b →
        u ∉ edgeIds
          (l.foldl (fun acc c => (Graph.remove_edge_fuel fuel acc c).1) b) →
        DependsOn b0 w u := by
  intro l
  induction l with
  | nil =>
    intro b0 b w _ _ _ u hu hdead
    rw [List.foldl_nil] at hdead
    exact absurd hu hdead
  | cons c t ih =>
    intro b0 b w hInv hsub hl u hu hdead
    rw [List.foldl_cons] at hdead
    have hInv2 : Inv (Graph.remove_edge_fuel fuel b c).1 :=
      remove_edge_fuel_inv fuel b c hInv
    have hsub2 : ∀ e, e ∈ (Graph.remove_edge_fuel fuel b c).1.edges →
        e ∈ b.edges := fun e he =>
      (remove_edge_fuel_shrink fuel b c hInv.mapKeysOk).edges_sub.subset he
    by_cases hub2 : u ∈ edgeIds (Graph.remove_edge_fuel fuel b c).1
    · exact ih b0 _ w hInv2 (fun e he => hsub e (hsub2 e he))
        (fun w2 hw2 => hl w2 (List.mem_cons_of_mem c hw2)) u hub2 hdead
    · rcases hOD b c u hInv hu hub2 with rfl | hdep
      · exact hl u (List.mem_cons_self _ _)
      · exact (hl c (List.mem_cons_self c t)).chain (hdep.mono_edges hsub)

theorem only_deps :
    ∀ (fuel : Nat) (b : Graph) (w u : Nat), Inv b → u ∈ edgeIds b →
      u ∉ edgeIds (Graph.remove_edge_fuel fuel b w).1 →
      u = w ∨ DependsOn b w u := by
  intro fuel
  induction fuel with
  | zero => intro b w u _ hu hdead; exact absurd hu hdead
  | succ fuel ih =>
    intro b w u hInv hu hdead
    cases hfind : b.edges.find? (fun e2 => e2.id = w) with
    | none =>
      rw [remove_edge_fuel_none hfind] at hdead
      exact absurd hu hdead
    | some e =>
      have he_id : e.id = w := by simpa using List.find?_some hfind
      rw [remove_edge_fuel_some hfind] at hdead
      by_cases hug1 : u ∈ edgeIds (removeChildren fuel b e.id)
      · left
        by_contra hne
        obtain ⟨e2, he2, he2id⟩ := mem_edgeIds.1 hug1
        apply hdead
        refine mem_edgeIds.2 ⟨e2, List.mem_filter.2 ⟨he2, ?_⟩, he2id⟩
        simp only [he2id]
        simpa using hne
      · right
        have hchild : ∀ c2 ∈ (mlook b.source_to_edges e.id).filter
            (fun c3 => (b.edges.find? (fun e3 => e3.id = c3)).isSome),
            DependsOn b w c2 := by
          intro c2 hc2
          obtain ⟨ec, hec, hecid, hecsrc⟩ :=
            consS_mlook hInv (List.mem_of_mem_filter hc2)
          exact hecid ▸ DependsOn.direct hec (hecsrc.trans he_id)
        exact only_deps_fold fuel ih _ b b w hInv (fun e2 he2 => he2)
          hchild u hu hug1

theorem remove_edge_fuel_dead {fuel : Nat} {g : Graph} {x : Nat}
    (hx : x ∉ edgeIds g) : Graph.remove_edge_fuel fuel g x = (g, none) := by
  cases fuel with
  | zero => rfl
  | succ n => exact remove_edge_fuel_none (find_edge_of_not_mem hx)

theorem filter_imp_sublist {α : Type} (p q : α → Bool) :
    ∀ l : List α, (∀ x ∈ l, p x = true → q x = true) →
      (l.filter p).Sublist (l.filter q) := by
  intro l
  induction l with
  | nil => intro _; simp
  | cons a t ih =>
    intro h
    by_cases hp : p a
    · have hq : q a := h a (List.mem_cons_self a t) hp
      rw [List.filter_cons_of_pos hp, List.filter_cons_of_pos hq]
      exact (ih (fun x hx hpx => h x (List.mem_cons_of_mem a hx) hpx)).cons₂ a
    · rw [List.filter_cons_of_neg (by simpa using hp)]
      by_cases hq : q a
      · rw [List.filter_cons_of_pos hq]
        exact (ih (fun x hx hpx => h x (List.mem_cons_of_mem a hx) hpx)).cons a
      · rw [List.filter_cons_of_neg (by simpa using hq)]
        exact ih (fun x hx hpx => h x (List.mem_cons_of_mem a hx) hpx)

theorem filter_length_lt (p q : Edge → Bool) :
    ∀ (l : List Edge) (d : Edge), d ∈ l →
      (∀ x ∈ l, p x = true → q x = true) →
      p d = false → q d = true →
      (l.filter p).length < (l.filter q).length := by
  intro l
  induction l with
  | nil => intro d hd; simp at hd
  | cons a t ih =>
    intro d hd himp hpd hqd
    have himp2 := fun x hx hpx => himp x (List.mem_cons_of_mem a hx) hpx
    rcases List.mem_cons.1 hd with rfl | hd
    · rw [List.filter_cons_of_neg (by simp [hpd]), List.filter_cons_of_pos hqd]
      have hle := (filter_imp_sublist p q t himp2).length_le
      simpa using Nat.lt_succ_of_le hle
    · have hlt := ih d hd himp2 hpd hqd
      by_cases hpa : p a
      · have hqa := himp a (List.mem_cons_self a t) hpa
        rw [List.filter_cons_of_pos hpa, List.filter_cons_of_pos hqa]
        simpa using hlt
      · rw [List.filter_cons_of_neg (by simpa using hpa)]
        by_cases hqa : q a
        · rw [List.filter_cons_of_pos hqa]
          exact Nat.lt_succ_of_lt hlt
        · rw [List.filter_cons_of_neg (by simpa using hqa)]
          exact hlt

theorem deep_kill_fold (f2 : Nat) (a : Graph) (z : Nat)
    (hDK : ∀ (b : Graph) (w : Nat), Inv b → w ∈ edgeIds b →
      (b.edges.filter (fun e2 => w < e2.id)).length + 1 ≤ f2 →
      ∀ y, (y = w ∨ DependsOn b w y) →
        y ∉ edgeIds (Graph.remove_edge_fuel f2 b w).1)
    (hInvA : Inv a)
    (hbound : (a.edges.filter (fun e2 => z < e2.id)).length ≤ f2) :
    ∀ (l : List Nat) (b : Graph), Inv b → Shrink a b → DeadClosed a b →
      (∀ w ∈ l, ∃ d ∈ a.edges, d.id = w ∧ d.source = z) →
      Inv (l.foldl (fun acc c2 => (Graph.remove_edge_fuel f2 acc c2).1) b) ∧
      Shrink a (l.foldl (fun acc c2 => (Graph.remove_edge_fuel f2 acc c2).1) b) ∧
      DeadClosed a (l.foldl (fun acc c2 => (Graph.remove_edge_fuel f2 acc c2).1) b) ∧
      ∀ w ∈ l,
        w ∉ edgeIds (l.foldl (fun acc c2 => (Graph.remove_edge_fuel f2 acc c2).1) b) ∧
        ∀ y, DependsOn a w y →
          y ∉ edgeIds (l.foldl (fun acc c2 => (Graph.remove_edge_fuel f2 acc c2).1) b) := by
  intro l
  induction l with
  | nil =>
    intro b hInvB hShr hDC _
    refine ⟨hInvB, hShr, hDC, ?_⟩
    intro w hw
    simp at hw
  | cons c t ih =>
    intro b hInvB hShr hDC hprop
    obtain ⟨d, hdA, hdid, hdsrc⟩ := hprop c (List.mem_cons_self c t)
    have hmd := (hInvA.mono d hdA).1
    rw [hdsrc, hdid] at hmd
    have hcA : c ∈ edgeIds a := mem_edgeIds.2 ⟨d, hdA, hdid⟩
    have hsubAB : ∀ e, e ∈ b.edges → e ∈ a.edges :=
      fun e he => hShr.edges_sub.subset he
    simp only [List.foldl_cons]
    by_cases hcb : c ∈ edgeIds b
    · have hInvB2 : Inv (Graph.remove_edge_fuel f2 b c).1 :=
        remove_edge_fuel_inv f2 b c hInvB
      have hShrB2 : Shrink b (Graph.remove_edge_fuel f2 b c).1 :=
        remove_edge_fuel_shrink f2 b c hInvB.mapKeysOk
      have hShrA2 : Shrink a (Graph.remove_edge_fuel f2 b c).1 :=
        hShr.trans hShrB2
      have hadq : (b.edges.filter (fun e2 => c < e2.id)).length + 1 ≤ f2 := by
        have h1 : (b.edges.filter (fun e2 => c < e2.id)).length ≤
            (a.edges.filter (fun e2 => c < e2.id)).length :=
          (hShr.edges_sub.filter (fun e2 => c < e2.id)).length_le
        have h2 : (a.edges.filter (fun e2 => c < e2.id)).length <
            (a.edges.filter (fun e2 => z < e2.id)).length := by
          refine filter_length_lt (fun e2 => c < e2.id) (fun e2 => z < e2.id)
            a.edges d hdA ?_ ?_ ?_
          · intro x hx hpx
            simp only [decide_eq_true_eq] at hpx ⊢
            omega
          · simp [hdid]
          · simp only [hdid, decide_eq_true_eq]
            exact hmd
        omega
      have hkillC := hDK b c hInvB hcb hadq
      have hckill : c ∉ edgeIds (Graph.remove_edge_fuel f2 b c).1 :=
        hkillC c (Or.inl rfl)
      have hdepkill : ∀ y, DependsOn a c y →
          y ∉ edgeIds (Graph.remove_edge_fuel f2 b c).1 := by
        intro y hy
        rcases dependsOn_transfer hInvA.edgeNodup hsubAB hDC hy with hyb | hydead
        · exact hkillC y (Or.inr hyb)
        · intro hymem
          exact hydead (edgeIds_subset_of_sublist hShrB2.edges_sub hymem)
      have hDC2 : DeadClosed a (Graph.remove_edge_fuel f2 b c).1 := by
        intro u huA hub2 y hy
        by_cases hub : u ∈ edgeIds b
        · rcases only_deps f2 b c u hInvB hub hub2 with heq | hdep
          · subst heq
            exact hdepkill y hy
          · rcases dependsOn_transfer hInvA.edgeNodup hsubAB hDC hy with
              hyb | hydead
            · exact hkillC y (Or.inr (hdep.chain hyb))
            · intro hymem
              exact hydead (edgeIds_subset_of_sublist hShrB2.edges_sub hymem)
        · intro hymem
          exact hDC u huA hub y hy
            (edgeIds_subset_of_sublist hShrB2.edges_sub hymem)
      obtain ⟨hIf, hSf, hDf, hKf⟩ := ih (Graph.remove_edge_fuel f2 b c).1
        hInvB2 hShrA2 hDC2 (fun w hw => hprop w (List.mem_cons_of_mem c hw))
      refine ⟨hIf, hSf, hDf, ?_⟩
      intro w hw
      rcases List.mem_cons.1 hw with heq | hwt
      · subst heq
        have hShrRest : Shrink (Graph.remove_edge_fuel f2 b w).1
            (t.foldl (fun acc c2 => (Graph.remove_edge_fuel f2 acc c2).1)
              (Graph.remove_edge_fuel f2 b w).1) :=
          foldl_shrink_chain _
            (fun g2 c2 hk => remove_edge_fuel_shrink f2 g2 c2 hk) t
            (Graph.remove_edge_fuel f2 b w).1 hInvB2.mapKeysOk
        refine ⟨?_, ?_⟩
        · intro hymem
          exact hckill (edgeIds_subset_of_sublist hShrRest.edges_sub hymem)
        · intro y hy hymem
          exact hdepkill y hy
            (edgeIds_subset_of_sublist hShrRest.edges_sub hymem)
      · exact hKf w hwt
    · have hb2eq : (Graph.remove_edge_fuel f2 b c).1 = b := by
        rw [remove_edge_fuel_dead hcb]
      rw [hb2eq]
      obtain ⟨hIf, hSf, hDf, hKf⟩ := ih b hInvB hShr hDC
        (fun w hw => hprop w (List.mem_cons_of_mem c hw))
      refine ⟨hIf, hSf, hDf, ?_⟩
      intro w hw
      rcases List.mem_cons.1 hw with heq | hwt
      · subst heq
        have hShrRest : Shrink b
            (t.foldl (fun acc c2 => (Graph.remove_edge_fuel f2 acc c2).1) b) :=
          foldl_shrink_chain _
            (fun g2 c2 hk => remove_edge_fuel_shrink f2 g2 c2 hk) t b
            hInvB.mapKeysOk
        refine ⟨?_, ?_⟩
        · intro hymem
          exact hcb (edgeIds_subset_of_sublist hShrRest.edges_sub hymem)
        · intro y hy hymem
          exact hDC w hcA hcb y hy
            (edgeIds_subset_of_sublist hShrRest.edges_sub hymem)
      · exact hKf w hwt

theorem deep_kill_aux :
    ∀ (N fuel : Nat), fuel ≤ N → ∀ (a : Graph) (z : Nat), Inv a →
      z ∈ edgeIds a →
      (a.edges.filter (fun e2 => z < e2.id)).length + 1 ≤ fuel →
      ∀ y, (y = z ∨ DependsOn a z y) →
        y ∉ edgeIds (Graph.remove_edge_fuel fuel a z).1 := by
  intro N
  induction N with
  | zero =>
    intro fuel hf a z _ _ hadq
    exact absurd hadq (by omega)
  | succ N ihN =>
    intro fuel hf a z hInv hz hadq y hy
    obtain ⟨f2, rfl⟩ : ∃ f2, fuel = f2 + 1 := by
      cases fuel with
      | zero => omega
      | succ n => exact ⟨n, rfl⟩
    rcases hy with rfl | hdep
    · exact (remove_edge_fuel_kill hInv hz).1
    · obtain ⟨e, hfind, he_mem, he_id⟩ := find_edge_of_mem hz
      rw [remove_edge_fuel_some hfind]
      have hDK : ∀ (b : Graph) (w : Nat), Inv b → w ∈ edgeIds b →
          (b.edges.filter (fun e2 => w < e2.id)).length + 1 ≤ f2 →
          ∀ y2, (y2 = w ∨ DependsOn b w y2) →
            y2 ∉ edgeIds (Graph.remove_edge_fuel f2 b w).1 :=
        fun b w hb hw hq => ihN f2 (by omega) b w hb hw hq
      have hin1 : (a.edges.filter (fun e2 => z < e2.id)).length ≤ f2 := by
        omega
      have hDCrfl : DeadClosed a a := by
        intro u huA hub _ _
        exact absurd huA hub
      have hchildprop : ∀ w ∈ (mlook a.source_to_edges e.id).filter
          (fun c2 => (a.edges.find? (fun e3 => e3.id = c2)).isSome),
          ∃ d ∈ a.edges, d.id = w ∧ d.source = z := by
        intro w hw
        obtain ⟨ec, hec, hecid, hecsrc⟩ :=
          consS_mlook hInv (List.mem_of_mem_filter hw)
        exact ⟨ec, hec, hecid, hecsrc.trans he_id⟩
      obtain ⟨hIf, hSf, hDf, hKf⟩ := deep_kill_fold f2 a z hDK hInv hin1
        ((mlook a.source_to_edges e.id).filter
          (fun c2 => (a.edges.find? (fun e3 => e3.id = c2)).isSome))
        a hInv (Shrink.rfl a) hDCrfl hchildprop
      obtain ⟨d, hd, hds, hor⟩ := dependsOn_decomp hdep
      have hdlive : (a.edges.find? (fun e3 => e3.id = d.id)).isSome = true := by
        obtain ⟨ef, hff, _, _⟩ :=
          find_edge_of_mem (mem_edgeIds.2 ⟨d, hd, rfl⟩)
        rw [hff]
        rfl
      have hdmlook : d.id ∈ mlook a.source_to_edges e.id := by
        have h1 := (hInv.consA d hd).1
        rw [hds, ← he_id] at h1
        exact h1
      have hkillD := hKf d.id (List.mem_filter.2 ⟨hdmlook, hdlive⟩)
      intro hymem
      obtain ⟨e2, he2, he2id⟩ := mem_edgeIds.1 hymem
      have hyg1 : y ∈ edgeIds (removeChildren f2 a e.id) :=
        mem_edgeIds.2 ⟨e2, List.mem_of_mem_filter he2, he2id⟩
      rcases hor with heq | hdepdy
      · exact hkillD.1 (heq ▸ hyg1)
      · exact hkillD.2 y hdepdy hyg1

/-- Adequate fuel kills the target edge and all its transitive outgoing
dependents. -/
theorem deep_kill (fuel : Nat) (a : Graph) (z : Nat) (hInv : Inv a)
    (hz : z ∈ edgeIds a)
    (hadq : (a.edges.filter (fun e2 => z < e2.id)).length + 1 ≤ fuel) :
    ∀ y, (y = z ∨ DependsOn a z y) →
      y ∉ edgeIds (Graph.remove_edge_fuel fuel a z).1 :=
  deep_kill_aux fuel fuel (Nat.le_refl fuel) a z hInv hz hadq

/-- Graph::remove_edge at its canonical fuel kills the target edge and every
transitive outgoing dependent. -/
theorem remove_edge_deep_kill {g : Graph} {z : Nat} (hInv : Inv g)
    (hz : z ∈ edgeIds g) :
    ∀ y, (y = z ∨ DependsOn g z y) → y ∉ edgeIds (g.remove_edge z).1 := by
  have hadq : (g.edges.filter (fun e2 => z < e2.id)).length + 1 ≤
      g.edges.length + 1 := by
    have h1 := List.length_filter_le (fun e2 => decide (z < e2.id)) g.edges
    omega
  exact deep_kill (g.edges.length + 1) g z hInv hz hadq

theorem wrapper_kill_fold (a : Graph) (hInvA : Inv a) :
    ∀ (l : List Nat) (b : Graph), Inv b → Shrink a b → DeadClosed a b →
      (∀ w ∈ l, w ∈ edgeIds a) →
      Inv (l.foldl (fun acc eid => (Graph.remove_edge acc eid).1) b) ∧
      Shrink a (l.foldl (fun acc eid => (Graph.remove_edge acc eid).1) b) ∧
      DeadClosed a (l.foldl (fun acc eid => (Graph.remove_edge acc eid).1) b) ∧
      ∀ w ∈ l,
        w ∉ edgeIds (l.foldl (fun acc eid => (Graph.remove_edge acc eid).1) b) ∧
        ∀ y, DependsOn a w y →
          y ∉ edgeIds (l.foldl (fun acc eid => (Graph.remove_edge acc eid).1) b) := by
  intro l
  induction l with
  | nil =>
    intro b hInvB hShr hDC _
    refine ⟨hInvB, hShr, hDC, ?_⟩
    intro w hw
    simp at hw
  | cons c t ih =>
    intro b hInvB hShr hDC hprop
    have hcA : c ∈ edgeIds a := hprop c (List.mem_cons_self c t)
    have hsubAB : ∀ e, e ∈ b.edges → e ∈ a.edges :=
      fun e he => hShr.edges_sub.subset he
    simp only [List.foldl_cons]
    by_cases hcb : c ∈ edgeIds b
    · have hInvB2 : Inv (b.remove_edge c).1 := remove_edge_inv hInvB
      have hShrB2 : Shrink b (b.remove_edge c).1 :=
        remove_edge_shrink hInvB.mapKeysOk
      have hShrA2 : Shrink a (b.remove_edge c).1 := hShr.trans hShrB2
      have hkillC := remove_edge_deep_kill hInvB hcb
      have hdepkill : ∀ y, DependsOn a c y →
          y ∉ edgeIds (b.remove_edge c).1 := by
        intro y hy
        rcases dependsOn_transfer hInvA.edgeNodup hsubAB hDC hy with hyb | hydead
        · exact hkillC y (Or.inr hyb)
        · intro hymem
          exact hydead (edgeIds_subset_of_sublist hShrB2.edges_sub hymem)
      have hDC2 : DeadClosed a (b.remove_edge c).1 := by
        intro u huA hub2 y hy
        by_cases hub : u ∈ edgeIds b
        · have hub2a : u ∉ edgeIds
              (Graph.remove_edge_fuel (b.edges.length + 1) b c).1 := hub2
          rcases only_deps (b.edges.length + 1) b c u hInvB hub hub2a with
            heq | hdep
          · subst heq
            exact hdepkill y hy
          · rcases dependsOn_transfer hInvA.edgeNodup hsubAB hDC hy with
              hyb | hydead
            · exact hkillC y (Or.inr (hdep.chain hyb))
            · intro hymem
              exact hydead (edgeIds_subset_of_sublist hShrB2.edges_sub hymem)
        · intro hymem
          exact hDC u huA hub y hy
            (edgeIds_subset_of_sublist hShrB2.edges_sub hymem)
      obtain ⟨hIf, hSf, hDf, hKf⟩ := ih (b.remove_edge c).1 hInvB2 hShrA2 hDC2
        (fun w hw => hprop w (List.mem_cons_of_mem c hw))
      refine ⟨hIf, hSf, hDf, ?_⟩
      intro w hw
      rcases List.mem_cons.1 hw with heq | hwt
      · subst heq
        have hShrRest : Shrink (b.remove_edge w).1
            (t.foldl (fun acc eid => (Graph.remove_edge acc eid).1)
              (b.remove_edge w).1) :=
          foldl_shrink_chain _ (fun g2 eid hk => remove_edge_shrink hk) t
            (b.remove_edge w).1 hInvB2.mapKeysOk
        refine ⟨?_, ?_⟩
        · intro hymem
          exact hkillC w (Or.inl rfl)
            (edgeIds_subset_of_sublist hShrRest.edges_sub hymem)
        · intro y hy hymem
          exact hdepkill y hy
            (edgeIds_subset_of_sublist hShrRest.edges_sub hymem)
      · exact hKf w hwt
    · have hb2eq : (Graph.remove_edge b c).1 = b := by
        rw [remove_edge_dead hcb]
      rw [hb2eq]
      obtain ⟨hIf, hSf, hDf, hKf⟩ := ih b hInvB hShr hDC
        (fun w hw => hprop w (List.mem_cons_of_mem c hw))
      refine ⟨hIf, hSf, hDf, ?_⟩
      intro w hw
      rcases List.mem_cons.1 hw with heq | hwt
      · subst heq
        have hShrRest : Shrink b
            (t.foldl (fun acc eid => (Graph.remove_edge acc eid).1) b) :=
          foldl_shrink_chain _ (fun g2 eid hk => remove_edge_shrink hk) t b
            hInvB.mapKeysOk
        refine ⟨?_, ?_⟩
        · intro hymem
          exact hcb (edgeIds_subset_of_sublist hShrRest.edges_sub hymem)
        · intro y hy hymem
          exact hDC w hcA hcb y hy
            (edgeIds_subset_of_sublist hShrRest.edges_sub hymem)
      · exact hKf w hwt

/-- Graph::remove_node kills every edge incident on the removed node in
either direction, together with all transitive outgoing dependents of each
such edge. -/
theorem remove_node_deep_kill {g : Graph} {id : Nat} (hInv : Inv g)
    (hid : id ∈ g.nodes) :
    ∀ c ∈ g.edges, (c.source = id ∨ c.target = id) →
      c.id ∉ edgeIds (g.remove_node id).1 ∧
      ∀ y, DependsOn g c.id y → y ∉ edgeIds (g.remove_node id).1 := by
  have heq : edgeIds (Graph.remove_node g id).1 =
      edgeIds ((mlook g.source_to_edges id ++ mlook g.target_to_edges id).foldl
        (fun acc eid => (Graph.remove_edge acc eid).1) g) := by
    unfold Graph.remove_node
    rw [if_pos hid]
    rfl
  have hDCg : DeadClosed g g := by
    intro u hu hnu _ _
    exact absurd hu hnu
  have hmemprop : ∀ w ∈ mlook g.source_to_edges id ++
      mlook g.target_to_edges id, w ∈ edgeIds g := by
    intro w hw
    rcases List.mem_append.1 hw with hws | hwt
    · obtain ⟨e2, he2, he2id, _⟩ := consS_mlook hInv hws
      exact mem_edgeIds.2 ⟨e2, he2, he2id⟩
    · obtain ⟨e2, he2, he2id, _⟩ := consT_mlook hInv hwt
      exact mem_edgeIds.2 ⟨e2, he2, he2id⟩
  obtain ⟨hIf, hSf, hDf, hKf⟩ := wrapper_kill_fold g hInv
    (mlook g.source_to_edges id ++ mlook g.target_to_edges id) g hInv
    (Shrink.rfl g) hDCg hmemprop
  intro c hc hinc
  have hcTR : c.id ∈ mlook g.source_to_edges id ++
      mlook g.target_to_edges id := by
    rcases hinc with hs | ht
    · refine List.mem_append.2 (Or.inl ?_)
      have h1 := (hInv.consA c hc).1
      rw [hs] at h1
      exact h1
    · refine List.mem_append.2 (Or.inr ?_)
      have h1 := (hInv.consA c hc).2
      rw [ht] at h1
      exact h1
  rw [heq]
  exact hKf c.id hcTR

/-- C1, amended: the actual cascade of the code.  Removing a live EDGE z
removes z itself and, transitively, every edge reachable from z through the
outgoing (source) direction: every y with DependsOn g z y is gone from the
edge table afterwards.  Removing a NODE removes every edge incident on it in
EITHER direction (outgoing or incoming index entry), and transitively all
outgoing dependents of each such edge.  (The counterexample theorem shows the
original claim fails: an edge merely targeting a removed edge survives.) -/
theorem c1_amended_cascade (g : Graph) (hInv : Inv g) :
    (∀ z ∈ edgeIds g, ∀ y, (y = z ∨ DependsOn g z y) →
      y ∉ edgeIds (g.remove_edge z).1) ∧
    (∀ id ∈ g.nodes, ∀ c ∈ g.edges, (c.source = id ∨ c.target = id) →
      c.id ∉ edgeIds (g.remove_node id).1 ∧
      ∀ y, DependsOn g c.id y → y ∉ edgeIds (g.remove_node id).1) := by
  constructor
  · intro z hz y hy
    exact remove_edge_deep_kill hInv hz y hy
  · intro id hid c hc hinc
    exact remove_node_deep_kill hInv hid c hc hinc

/-- C1 witness: the amended cascade at the concrete graph gCycle (edge 2 =
(0→1), edge 3 = (2→1), edge 4 = (3→2)): removing edge 2 kills the transitive
dependent 4 (distance two through sources), and removing node 0 kills the
incident edge 2 and its transitive dependent 4. -/
theorem c1_witness :
    Inv gCycle ∧ 2 ∈ edgeIds gCycle ∧ DependsOn gCycle 2 4 ∧
    4 ∉ edgeIds (gCycle.remove_edge 2).1 ∧
    0 ∈ gCycle.nodes ∧ (⟨2, 0, 1⟩ : Edge) ∈ gCycle.edges ∧
    2 ∉ edgeIds (gCycle.remove_node 0).1 ∧
    4 ∉ edgeIds (gCycle.remove_node 0).1 := by
  have hInv : Inv gCycle := by decide
  have hmain := c1_amended_cascade gCycle hInv
  have hdep34 : DependsOn gCycle 2 4 :=
    @DependsOn.step gCycle 2 3 ⟨4, 3, 2⟩
      (@DependsOn.direct gCycle 2 ⟨3, 2, 1⟩ (by decide) rfl) (by decide) rfl
  refine ⟨hInv, by decide, hdep34, ?_, by decide, by decide, ?_, ?_⟩
  · exact hmain.1 2 (by decide) 4 (Or.inr hdep34)
  · exact (hmain.2 0 (by decide) ⟨2, 0, 1⟩ (by decide) (Or.inl rfl)).1
  · exact (hmain.2 0 (by decide) ⟨2, 0, 1⟩ (by decide) (Or.inl rfl)).2 4 hdep34

/-- C1, counterexample: removing an element does NOT remove every edge that
depends on it.  In gDangle, edge 4 has the edge 2 as its target; removing
edge 2 succeeds, yet edge 4 survives (with a dangling target), because
Graph::remove_edge cascades only through the outgoing index of the removed
edge and never consults its incoming index. -/
theorem c1_counterexample :
    (gDangle.remove_edge 2).2 = some ⟨2, 0, 1⟩ ∧
    (gDangle.remove_edge 2).1.get_edge 2 = none ∧
    (gDangle.remove_edge 2).1.get_edge 4 = some ⟨4, 3, 2⟩ := by decide

/-- C2, code bug: after removing the edge 2 through GraphState::remove_element
(which dispatches to Graph::remove_node because the edge owns a node record),
get_node 2 returns None but get_edge 2 still returns the edge record;
conversely after Graph::remove_edge, get_edge 2 is None but get_node 2 still
resolves.  The claim (and the spec) require both lookups to return absence
after any removal; each removal routine deletes only one of the two arena
records for an edge identity. -/
theorem c2_stale_lookup :
    ((stE.remove_element 2).graph.get_node 2 = none ∧
      (stE.remove_element 2).graph.get_edge 2 = some ⟨2, 0, 1⟩) ∧
    ((gE1.remove_edge 2).1.get_edge 2 = none ∧
      (gE1.remove_edge 2).1.get_node 2 = some 2) := by decide

/-- C3, counterexample: after Graph::remove_node 2 (the path remove_element
takes for an edge identity), identity 2 is still a currently-present edge
(get_edge 2 resolves) and 1 is a present node, yet add_edge 2 1 returns None:
add_edge checks both endpoints against the node table only, so the claimed
equivalence with liveness as a node or edge fails. -/
theorem c3_counterexample :
    (gE1.remove_node 2).1.get_edge 2 = some ⟨2, 0, 1⟩ ∧
    (gE1.remove_node 2).1.get_node 1 = some 1 ∧
    ((gE1.remove_node 2).1.add_edge 2 1).2 = none := by decide

/-- C4, code bug: calling remove_element twice on the edge identity 2 is not
idempotent.  The first call removes the node record but leaves the edge
record, so the second call takes the remove_edge branch, returns the edge
(not absence), and mutates the state by deleting the leftover edge record. -/
theorem c4_second_removal_mutates :
    (stE.remove_element 2).graph.get_edge 2 = some ⟨2, 0, 1⟩ ∧
    ((stE.remove_element 2).remove_element 2).graph.get_edge 2 = none ∧
    (stE.remove_element 2).remove_element 2 ≠ stE.remove_element 2 := by decide

/-- C5, counterexample: removing node 0 cascades the removal of edge 2 (its
edge record is gone), yet after cleanup_positions the overlay still holds the
entry of identity 2, because the cascade left a stale node record for 2 in
the arena and cleanup retains any identity with a node or edge record. -/
theorem c5_counterexample :
    (stE.remove_element 0).graph.get_edge 2 = none ∧
    pLook ((stE.remove_element 0).cleanup_positions).positions 2 =
      some (mid ⟨0, 0⟩ ⟨2, 0⟩) := by
  exact ⟨by decide, rfl⟩

/-- C7: in the cyclic scenario e1 = 2 = (0 → 1), e4 = 3 = (2 → 1),
e5 = 4 = (3 → 2), removing e1 terminates and removes exactly the three edge
records e1, e4, e5 (the edge table goes from the three of them to empty, so
each is removed exactly once and nothing else is touched).  The recursion
needs depth three: granting it 400 units of fuel instead of the canonical
four changes nothing, which is the embedded form of termination without
infinite recursion on the cycle. -/
theorem c7_cycle_removal :
    gCycle.edges = [⟨2, 0, 1⟩, ⟨3, 2, 1⟩, ⟨4, 3, 2⟩] ∧
    (gCycle.remove_edge 2).2 = some ⟨2, 0, 1⟩ ∧
    (gCycle.remove_edge 2).1.edges = [] ∧
    Graph.remove_edge_fuel 4 gCycle 2 = Graph.remove_edge_fuel 400 gCycle 2 := by
  decide

theorem pLook_pInsert_self : ∀ (l : List (Nat × Pos2)) (k : Nat) (v : Pos2),
    pLook (pInsert l k v) k = some v := by
  intro l
  induction l with
  | nil => intro k v; simp [pInsert, pLook]
  | cons pr tl ih =>
    intro k v
    by_cases hk : pr.1 = k
    · simp [pInsert, hk, pLook]
    · simp only [pInsert, if_neg hk, pLook]
      exact ih k v

theorem pLook_pInsert_ne : ∀ (l : List (Nat × Pos2)) (k : Nat) (v : Pos2)
    (x : Nat), k ≠ x → pLook (pInsert l k v) x = pLook l x := by
  intro l
  induction l with
  | nil => intro k v x hne; simp [pInsert, pLook, hne]
  | cons pr tl ih =>
    intro k v x hne
    by_cases hk : pr.1 = k
    · simp only [pInsert, if_pos hk, pLook]
      rw [if_neg (by omega : ¬k = x), if_neg (by omega : ¬pr.1 = x)]
    · simp only [pInsert, if_neg hk, pLook]
      by_cases hx : pr.1 = x
      · rw [if_pos hx, if_pos hx]
      · rw [if_neg hx, if_neg hx]
        exact ih k v x hne

theorem get_edge_of_mem {g : Graph} (hnd : (edgeIds g).Nodup) {e : Edge}
    (he : e ∈ g.edges) : g.get_edge e.id = some e := by
  have hm : e.id ∈ edgeIds g := mem_edgeIds.2 ⟨e, he, rfl⟩
  obtain ⟨e2, hf, he2, hid⟩ := find_edge_of_mem hm
  have heq : e2 = e := edge_unique hnd he2 he hid
  subst heq
  exact hf

theorem upStep_eq_or (g : Graph) (pos : List (Nat × Pos2)) (curr : Nat) :
    upStep g pos curr = pos ∨
    ∃ e a b, g.get_edge curr = some e ∧ pLook pos e.source = some a ∧
      pLook pos e.target = some b ∧
      upStep g pos curr = pInsert pos curr (mid a b) := by
  unfold upStep
  rcases hge : g.get_edge curr with _ | e
  · simp only [hge]
    exact Or.inl trivial
  · rcases hs : pLook pos e.source with _ | a
    · rcases ht : pLook pos e.target with _ | b
      · simp only [hge, hs, ht]
        exact Or.inl trivial
      · simp only [hge, hs, ht]
        exact Or.inl trivial
    · rcases ht : pLook pos e.target with _ | b
      · simp only [hge, hs, ht]
        exact Or.inl trivial
      · simp only [hge, hs, ht]
        exact Or.inr ⟨e, a, b, rfl, hs, ht, rfl⟩

theorem upStep_write {g : Graph} (hnd : (edgeIds g).Nodup) {e : Edge}
    (he : e ∈ g.edges) {pos : List (Nat × Pos2)} {a b : Pos2}
    (hs : pLook pos e.source = some a) (ht : pLook pos e.target = some b) :
    upStep g pos e.id = pInsert pos e.id (mid a b) := by
  have hget : g.get_edge e.id = some e := get_edge_of_mem hnd he
  unfold upStep
  simp only [hget, hs, ht]

theorem upStep_pLook_ne (g : Graph) (pos : List (Nat × Pos2)) (curr x : Nat)
    (hne : curr ≠ x) : pLook (upStep g pos curr) x = pLook pos x := by
  rcases upStep_eq_or g pos curr with h | ⟨e, a, b, _, _, _, h⟩
  · rw [h]
  · rw [h, pLook_pInsert_ne pos curr (mid a b) x hne]

theorem upf_zero (st : GraphState) (visited queue : List Nat) :
    GraphState.update_positions_fuel 0 st visited queue = st := rfl

theorem upf_nil (fuel : Nat) (st : GraphState) (visited : List Nat) :
    GraphState.update_positions_fuel (fuel + 1) st visited [] = st := rfl

theorem upf_visited (fuel : Nat) (st : GraphState) (visited : List Nat)
    (curr : Nat) (rest : List Nat) (h : curr ∈ visited) :
    GraphState.update_positions_fuel (fuel + 1) st visited (curr :: rest) =
      GraphState.update_positions_fuel fuel st visited rest := by
  simp only [GraphState.update_positions_fuel]
  rw [if_pos h]

theorem upf_new (fuel : Nat) (st : GraphState) (visited : List Nat)
    (curr : Nat) (rest : List Nat) (h : curr ∉ visited) :
    GraphState.update_positions_fuel (fuel + 1) st visited (curr :: rest) =
      GraphState.update_positions_fuel fuel
        ⟨st.graph, upStep st.graph st.positions curr, st.camera⟩
        (curr :: visited)
        (rest ++ st.graph.get_outgoing_edges curr ++
          st.graph.get_incoming_edges curr) := by
  simp only [GraphState.update_positions_fuel]
  rw [if_neg h]
  unfold upStep
  rcases hge : st.graph.get_edge curr with _ | e
  · simp only [hge]
  · rcases hs : pLook st.positions e.source with _ | a
    · rcases ht : pLook st.positions e.target with _ | b
      · simp only [hge, hs, ht]
      · simp only [hge, hs, ht]
    · rcases ht : pLook st.positions e.target with _ | b
      · simp only [hge, hs, ht]
      · simp only [hge, hs, ht]

theorem upf_graph : ∀ (fuel : Nat) (st : GraphState) (visited queue : List Nat),
    (GraphState.update_positions_fuel fuel st visited queue).graph =
      st.graph := by
  intro fuel
  induction fuel with
  | zero => intro st v queue; rfl
  | succ fuel ih =>
    intro st visited queue
    cases queue with
    | nil => rfl
    | cons curr rest =>
      by_cases h : curr ∈ visited
      · rw [upf_visited fuel st visited curr rest h]
        exact ih st visited rest
      · rw [upf_new fuel st visited curr rest h]
        exact ih _ _ _

theorem filterMap_some_id {f : Nat → Option Nat} :
    ∀ l : List Nat, (∀ a ∈ l, f a = some a) → l.filterMap f = l := by
  intro l
  induction l with
  | nil => intro _; rfl
  | cons a t ih =>
    intro h
    have h1 := h a (List.mem_cons_self a t)
    simp [List.filterMap_cons, h1,
      ih (fun x hx => h x (List.mem_cons_of_mem a hx))]

theorem get_outgoing_eq {g : Graph} (hInv : Inv g) (k : Nat) :
    g.get_outgoing_edges k = mlook g.source_to_edges k := by
  unfold Graph.get_outgoing_edges
  apply filterMap_some_id
  intro a ha
  obtain ⟨e2, he2, he2id, _⟩ := consS_mlook hInv ha
  have h3 := get_edge_of_mem hInv.edgeNodup he2
  rw [he2id] at h3
  rw [h3]
  simp [he2id]

theorem get_incoming_eq {g : Graph} (hInv : Inv g) (k : Nat) :
    g.get_incoming_edges k = mlook g.target_to_edges k := by
  unfold Graph.get_incoming_edges
  apply filterMap_some_id
  intro a ha
  obtain ⟨e2, he2, he2id, _⟩ := consT_mlook hInv ha
  have h3 := get_edge_of_mem hInv.edgeNodup he2
  rw [he2id] at h3
  rw [h3]
  simp [he2id]

theorem mem_out_edgeIds {g : Graph} (hInv : Inv g) {k x : Nat}
    (h : x ∈ g.get_outgoing_edges k) : x ∈ edgeIds g := by
  rw [get_outgoing_eq hInv] at h
  obtain ⟨e2, he2, he2id, _⟩ := consS_mlook hInv h
  exact mem_edgeIds.2 ⟨e2, he2, he2id⟩

theorem mem_in_edgeIds {g : Graph} (hInv : Inv g) {k x : Nat}
    (h : x ∈ g.get_incoming_edges k) : x ∈ edgeIds g := by
  rw [get_incoming_eq hInv] at h
  obtain ⟨e2, he2, he2id, _⟩ := consT_mlook hInv h
  exact mem_edgeIds.2 ⟨e2, he2, he2id⟩

theorem edge_mem_out {g : Graph} (hInv : Inv g) {e : Edge}
    (he : e ∈ g.edges) : e.id ∈ g.get_outgoing_edges e.source := by
  rw [get_outgoing_eq hInv]
  exact (hInv.consA e he).1

theorem mlook_nodup {m : List (Nat × List Nat)}
    (h : ∀ p ∈ m, p.2.Nodup) (k : Nat) : (mlook m k).Nodup := by
  induction m with
  | nil => simp [mlook]
  | cons p tl ih =>
    by_cases hk : p.1 = k
    · rw [mlook, if_pos hk]
      exact h p (List.mem_cons_self p tl)
    · rw [mlook, if_neg hk]
      exact ih (fun pr hpr => h pr (List.mem_cons_of_mem p hpr))

theorem degSum_cons_visited (g : Graph) :
    ∀ l : List Nat, l.Nodup → ∀ (visited : List Nat) (curr : Nat),
      curr ∈ l → curr ∉ visited →
      degSum g l visited = degS g curr + degSum g l (curr :: visited) := by
  intro l
  induction l with
  | nil => intro _ visited curr hc; simp at hc
  | cons a tl ih =>
    intro hnd visited curr hc hcv
    have hand : a ∉ tl := (List.nodup_cons.1 hnd).1
    have hndt : tl.Nodup := (List.nodup_cons.1 hnd).2
    rcases List.mem_cons.1 hc with heq | hct
    · subst heq
      unfold degSum
      rw [List.filter_cons_of_pos (by simp [hcv]),
        List.filter_cons_of_neg (by simp),
        List.map_cons, List.sum_cons]
      have hfc : tl.filter (fun x => decide (x ∉ visited)) =
          tl.filter (fun x => decide (x ∉ curr :: visited)) := by
        apply List.filter_congr
        intro x hx
        have hxc : x ≠ curr := fun h2 => hand (h2 ▸ hx)
        simp [List.mem_cons, hxc]
      rw [hfc]
    · have hca : curr ≠ a := fun h2 => hand (h2 ▸ hct)
      have ih2 := ih hndt visited curr hct hcv
      unfold degSum at ih2 ⊢
      by_cases hav : a ∈ visited
      · rw [List.filter_cons_of_neg (by simp [hav]),
          List.filter_cons_of_neg (by simp [List.mem_cons, hav])]
        exact ih2
      · rw [List.filter_cons_of_pos (by simp [hav]),
          List.filter_cons_of_pos (by simp [List.mem_cons, hav, Ne.symm hca]),
          List.map_cons, List.sum_cons, List.map_cons, List.sum_cons]
        omega

theorem sum_degS_split (g : Graph) :
    ∀ l : List Nat, (l.map (degS g)).sum =
      (l.map (fun x => (g.get_outgoing_edges x).length)).sum +
      (l.map (fun x => (g.get_incoming_edges x).length)).sum := by
  intro l
  induction l with
  | nil => rfl
  | cons a t ih =>
    simp only [List.map_cons, List.sum_cons, ih, degS]
    omega

theorem sum_out_le {g : Graph} (hInv : Inv g) :
    ∀ L : List Nat, L.Nodup →
      (L.map (fun x => (g.get_outgoing_edges x).length)).sum ≤
        g.edges.length := by
  intro L hL
  have hmapeq : L.map (fun x => (g.get_outgoing_edges x).length) =
      (L.map (fun x => mlook g.source_to_edges x)).map List.length := by
    rw [List.map_map]
    exact List.map_congr_left
      (fun a _ => by simp [get_outgoing_eq hInv, Function.comp])
  rw [hmapeq, ← List.length_flatten]
  have hnd : ((L.map (fun x => mlook g.source_to_edges x)).flatten).Nodup := by
    rw [List.nodup_flatten]
    refine ⟨?_, ?_⟩
    · intro s hs
      obtain ⟨x, hx, hxe⟩ := List.mem_map.1 hs
      rw [← hxe]
      exact mlook_nodup hInv.setS x
    · refine List.Pairwise.map _ ?_ hL
      intro x y hxy
      intro z hzx hzy
      obtain ⟨ex, hex, hexid, hexsrc⟩ := consS_mlook hInv hzx
      obtain ⟨ey, hey, heyid, heysrc⟩ := consS_mlook hInv hzy
      have hxyeq : ex = ey :=
        edge_unique hInv.edgeNodup hex hey (hexid.trans heyid.symm)
      apply hxy
      rw [← hexsrc, ← heysrc, hxyeq]
  have hsub : ((L.map (fun x => mlook g.source_to_edges x)).flatten) ⊆
      edgeIds g := by
    intro z hz
    obtain ⟨s, hs, hzs⟩ := List.mem_flatten.1 hz
    obtain ⟨x, hx, hxe⟩ := List.mem_map.1 hs
    rw [← hxe] at hzs
    obtain ⟨e2, he2, he2id, _⟩ := consS_mlook hInv hzs
    exact mem_edgeIds.2 ⟨e2, he2, he2id⟩
  have hle := (List.subperm_of_subset hnd hsub).length_le
  have h2 : (edgeIds g).length = g.edges.length := by simp [edgeIds]
  omega

theorem sum_in_le {g : Graph} (hInv : Inv g) :
    ∀ L : List Nat, L.Nodup →
      (L.map (fun x => (g.get_incoming_edges x).length)).sum ≤
        g.edges.length := by
  intro L hL
  have hmapeq : L.map (fun x => (g.get_incoming_edges x).length) =
      (L.map (fun x => mlook g.target_to_edges x)).map List.length := by
    rw [List.map_map]
    exact List.map_congr_left
      (fun a _ => by simp [get_incoming_eq hInv, Function.comp])
  rw [hmapeq, ← List.length_flatten]
  have hnd : ((L.map (fun x => mlook g.target_to_edges x)).flatten).Nodup := by
    rw [List.nodup_flatten]
    refine ⟨?_, ?_⟩
    · intro s hs
      obtain ⟨x, hx, hxe⟩ := List.mem_map.1 hs
      rw [← hxe]
      exact mlook_nodup hInv.setT x
    · refine List.Pairwise.map _ ?_ hL
      intro x y hxy
      intro z hzx hzy
      obtain ⟨ex, hex, hexid, hextgt⟩ := consT_mlook hInv hzx
      obtain ⟨ey, hey, heyid, heytgt⟩ := consT_mlook hInv hzy
      have hxyeq : ex = ey :=
        edge_unique hInv.edgeNodup hex hey (hexid.trans heyid.symm)
      apply hxy
      rw [← hextgt, ← heytgt, hxyeq]
  have hsub : ((L.map (fun x => mlook g.target_to_edges x)).flatten) ⊆
      edgeIds g := by
    intro z hz
    obtain ⟨s, hs, hzs⟩ := List.mem_flatten.1 hz
    obtain ⟨x, hx, hxe⟩ := List.mem_map.1 hs
    rw [← hxe] at hzs
    obtain ⟨e2, he2, he2id, _⟩ := consT_mlook hInv hzs
    exact mem_edgeIds.2 ⟨e2, he2, he2id⟩
  have hle := (List.subperm_of_subset hnd hsub).length_le
  have h2 : (edgeIds g).length = g.edges.length := by simp [edgeIds]
  omega

theorem degSum_start_le {g : Graph} (hInv : Inv g) (r0 : Nat) :
    1 + degSum g ((r0 :: edgeIds g).dedup) [] ≤ 2 * g.edges.length + 2 := by
  have hnil : ((r0 :: edgeIds g).dedup).filter
      (fun x => x ∉ ([] : List Nat)) = (r0 :: edgeIds g).dedup :=
    List.filter_eq_self.2 (fun a _ => by simp)
  unfold degSum
  rw [hnil, sum_degS_split]
  have h1 := sum_out_le hInv ((r0 :: edgeIds g).dedup) (List.nodup_dedup _)
  have h2 := sum_in_le hInv ((r0 :: edgeIds g).dedup) (List.nodup_dedup _)
  omega

theorem bfs_master (g : Graph) (cam : Camera) (hInv : Inv g)
    (eid s t r0 r1 : Nat) (ps pt : Pos2)
    (hse : (⟨eid, s, t⟩ : Edge) ∈ g.edges)
    (P : List (Nat × Pos2) → Prop)
    (hPs : ∀ pos, P pos → pLook pos s = some ps)
    (hPt : ∀ pos, P pos → pLook pos t = some pt)
    (hPe : ∀ pos curr e a b, P pos → g.get_edge curr = some e →
      pLook pos e.source = some a → pLook pos e.target = some b →
        P (pInsert pos curr (mid a b)))
    (hlink01 : r0 ≠ r1 →
      r1 ∈ g.get_outgoing_edges r0 ∨ r1 ∈ g.get_incoming_edges r0)
    (hlink12 : eid ∈ g.get_outgoing_edges r1 ∨
      eid ∈ g.get_incoming_edges r1) :
    ∀ (fuel : Nat) (visited queue : List Nat) (pos : List (Nat × Pos2)),
      P pos →
      (eid ∈ visited → pLook pos eid = some (mid ps pt)) →
      (∀ x ∈ queue, x = r0 ∨ x ∈ edgeIds g) →
      (r0 ∈ queue ∨ r0 ∈ visited) →
      (r0 ∈ visited → r1 ∈ queue ∨ r1 ∈ visited) →
      (r1 ∈ visited → eid ∈ queue ∨ eid ∈ visited) →
      queue.length + degSum g ((r0 :: edgeIds g).dedup) visited ≤ fuel →
      P (GraphState.update_positions_fuel fuel ⟨g, pos, cam⟩
          visited queue).positions ∧
      pLook (GraphState.update_positions_fuel fuel ⟨g, pos, cam⟩
          visited queue).positions eid = some (mid ps pt) := by
  intro fuel
  induction fuel with
  | zero =>
    intro visited queue pos hP hval hdom hr0 hr1 hr2 hfuel
    have hqe : queue = [] := List.eq_nil_of_length_eq_zero (by omega)
    subst hqe
    rcases hr0 with h | h
    · simp at h
    · rcases hr1 h with h1 | h1
      · simp at h1
      · rcases hr2 h1 with h2 | h2
        · simp at h2
        · exact ⟨hP, hval h2⟩
  | succ fuel ih =>
    intro visited queue pos hP hval hdom hr0 hr1 hr2 hfuel
    cases queue with
    | nil =>
      rcases hr0 with h | h
      · simp at h
      · rcases hr1 h with h1 | h1
        · simp at h1
        · rcases hr2 h1 with h2 | h2
          · simp at h2
          · exact ⟨hP, hval h2⟩
    | cons curr rest =>
      by_cases hv : curr ∈ visited
      · rw [upf_visited fuel ⟨g, pos, cam⟩ visited curr rest hv]
        refine ih visited rest pos hP hval
          (fun x hx => hdom x (List.mem_cons_of_mem curr hx)) ?_ ?_ ?_ ?_
        · rcases hr0 with h | h
          · rcases List.mem_cons.1 h with heq | h2
            · exact Or.inr (heq ▸ hv)
            · exact Or.inl h2
          · exact Or.inr h
        · intro h0
          rcases hr1 h0 with h | h
          · rcases List.mem_cons.1 h with heq | h2
            · exact Or.inr (heq ▸ hv)
            · exact Or.inl h2
          · exact Or.inr h
        · intro h0
          rcases hr2 h0 with h | h
          · rcases List.mem_cons.1 h with heq | h2
            · exact Or.inr (heq ▸ hv)
            · exact Or.inl h2
          · exact Or.inr h
        · simp only [List.length_cons] at hfuel
          omega
      · rw [upf_new fuel ⟨g, pos, cam⟩ visited curr rest hv]
        have hP1 : P (upStep g pos curr) := by
          rcases upStep_eq_or g pos curr with h | ⟨e, a, b, hge, hs2, ht2, h⟩
          · rw [h]
            exact hP
          · rw [h]
            exact hPe pos curr e a b hP hge hs2 ht2
        have hval1 : eid ∈ curr :: visited →
            pLook (upStep g pos curr) eid = some (mid ps pt) := by
          intro hmem
          by_cases heqe : curr = eid
          · have hw : upStep g pos eid = pInsert pos eid (mid ps pt) :=
              upStep_write hInv.edgeNodup hse (hPs pos hP) (hPt pos hP)
            rw [heqe, hw, pLook_pInsert_self]
          · rw [upStep_pLook_ne g pos curr eid heqe]
            rcases List.mem_cons.1 hmem with h2 | h2
            · exact absurd h2.symm heqe
            · exact hval h2
        have hdom1 : ∀ x ∈ rest ++ g.get_outgoing_edges curr ++
            g.get_incoming_edges curr, x = r0 ∨ x ∈ edgeIds g := by
          intro x hx
          rcases List.mem_append.1 hx with hx1 | hxin
          · rcases List.mem_append.1 hx1 with hxr | hxout
            · exact hdom x (List.mem_cons_of_mem curr hxr)
            · exact Or.inr (mem_out_edgeIds hInv hxout)
          · exact Or.inr (mem_in_edgeIds hInv hxin)
        have hr0n : r0 ∈ rest ++ g.get_outgoing_edges curr ++
            g.get_incoming_edges curr ∨ r0 ∈ curr :: visited := by
          rcases hr0 with h | h
          · rcases List.mem_cons.1 h with heq | h2
            · exact Or.inr (heq ▸ List.mem_cons_self curr visited)
            · exact Or.inl (List.mem_append.2 (Or.inl
                (List.mem_append.2 (Or.inl h2))))
          · exact Or.inr (List.mem_cons_of_mem curr h)
        have hr1n : r0 ∈ curr :: visited →
            r1 ∈ rest ++ g.get_outgoing_edges curr ++
              g.get_incoming_edges curr ∨ r1 ∈ curr :: visited := by
          intro h0
          rcases List.mem_cons.1 h0 with heq0 | h0v
          · by_cases h01 : r0 = r1
            · refine Or.inr ?_
              rw [← h01, heq0]
              exact List.mem_cons_self curr visited
            · rcases hlink01 h01 with hl | hl
              · refine Or.inl (List.mem_append.2 (Or.inl
                  (List.mem_append.2 (Or.inr ?_))))
                rw [← heq0]
                exact hl
              · refine Or.inl (List.mem_append.2 (Or.inr ?_))
                rw [← heq0]
                exact hl
          · rcases hr1 h0v with h | h
            · rcases List.mem_cons.1 h with heq | h2
              · exact Or.inr (heq ▸ List.mem_cons_self curr visited)
              · exact Or.inl (List.mem_append.2 (Or.inl
                  (List.mem_append.2 (Or.inl h2))))
            · exact Or.inr (List.mem_cons_of_mem curr h)
        have hr2n : r1 ∈ curr :: visited →
            eid ∈ rest ++ g.get_outgoing_edges curr ++
              g.get_incoming_edges curr ∨ eid ∈ curr :: visited := by
          intro h0
          rcases List.mem_cons.1 h0 with heq1 | h1v
          · rcases hlink12 with hl | hl
            · refine Or.inl (List.mem_append.2 (Or.inl
                (List.mem_append.2 (Or.inr ?_))))
              rw [← heq1]
              exact hl
            · refine Or.inl (List.mem_append.2 (Or.inr ?_))
              rw [← heq1]
              exact hl
          · rcases hr2 h1v with h | h
            · rcases List.mem_cons.1 h with heq | h2
              · exact Or.inr (heq ▸ List.mem_cons_self curr visited)
              · exact Or.inl (List.mem_append.2 (Or.inl
                  (List.mem_append.2 (Or.inl h2))))
            · exact Or.inr (List.mem_cons_of_mem curr h)
        have hfn : (rest ++ g.get_outgoing_edges curr ++
            g.get_incoming_edges curr).length +
            degSum g ((r0 :: edgeIds g).dedup) (curr :: visited) ≤ fuel := by
          have hcurrL : curr ∈ (r0 :: edgeIds g).dedup := by
            rw [List.mem_dedup]
            rcases hdom curr (List.mem_cons_self curr rest) with h | h
            · rw [h]
              exact List.mem_cons_self r0 (edgeIds g)
            · exact List.mem_cons_of_mem r0 h
          have hsum := degSum_cons_visited g ((r0 :: edgeIds g).dedup)
            (List.nodup_dedup _) visited curr hcurrL hv
          have hdegS : degS g curr = (g.get_outgoing_edges curr).length +
              (g.get_incoming_edges curr).length := rfl
          simp only [List.length_cons] at hfuel
          simp only [List.length_append]
          omega
        exact ih (curr :: visited)
          (rest ++ g.get_outgoing_edges curr ++ g.get_incoming_edges curr)
          (upStep g pos curr) hP1 hval1 hdom1 hr0n hr1n hr2n hfn

/-- C8: in EVERY engine-reachable graph holding an edge e1 = (n1 → n2) and a
dependent edge e2 = (e1 → n2), where n1 and n2 are plain nodes (no edge
record) and n2's position is known at q, move_node(n1, p) writes mid p q as
e1's position; and one additional propagation pass writes
mid (mid p q) q — the midpoint of e1's and n2's positions — as e2's
position, with e1 keeping mid p q.  (f32 coordinates are modelled as exact
rationals; the claim is about which midpoint expressions are written.) -/
theorem c8_propagation_universal (g : Graph) (st : GraphState)
    (n1 n2 e1id e2id : Nat) (p q : Pos2)
    (hg : Reachable g) (hst : st.graph = g)
    (he1 : (⟨e1id, n1, n2⟩ : Edge) ∈ g.edges)
    (he2 : (⟨e2id, e1id, n2⟩ : Edge) ∈ g.edges)
    (hn1 : g.get_edge n1 = none) (hn2 : g.get_edge n2 = none)
    (hne : n1 ≠ n2)
    (hq : pLook st.positions n2 = some q) :
    pLook (GraphEditor.move_node st n1 p).positions e1id = some (mid p q) ∧
    pLook ((GraphEditor.move_node st n1 p).update_positions_recursive
      n1).positions e2id = some (mid (mid p q) q) ∧
    pLook ((GraphEditor.move_node st n1 p).update_positions_recursive
      n1).positions e1id = some (mid p q) := by
  have hInv : Inv g := reachable_inv hg
  have hmv : GraphEditor.move_node st n1 p =
      GraphState.update_positions_fuel (2 * g.edges.length + 2)
        ⟨g, pInsert st.positions n1 p, st.camera⟩ [] [n1] := by
    unfold GraphEditor.move_node GraphState.update_positions_recursive
    rw [hst]
  have hPe1 : ∀ pos curr e a b,
      (pLook pos n1 = some p ∧ pLook pos n2 = some q) →
      g.get_edge curr = some e →
      pLook pos e.source = some a → pLook pos e.target = some b →
      (pLook (pInsert pos curr (mid a b)) n1 = some p ∧
        pLook (pInsert pos curr (mid a b)) n2 = some q) := by
    intro pos curr e a b hP hge hs2 ht2
    have hc1 : curr ≠ n1 := by
      intro h
      rw [h, hn1] at hge
      exact Option.noConfusion hge
    have hc2 : curr ≠ n2 := by
      intro h
      rw [h, hn2] at hge
      exact Option.noConfusion hge
    refine ⟨?_, ?_⟩
    · rw [pLook_pInsert_ne pos curr (mid a b) n1 hc1]
      exact hP.1
    · rw [pLook_pInsert_ne pos curr (mid a b) n2 hc2]
      exact hP.2
  have hlinkA : e1id ∈ g.get_outgoing_edges n1 ∨
      e1id ∈ g.get_incoming_edges n1 := Or.inl (edge_mem_out hInv he1)
  have hq0 : pLook (pInsert st.positions n1 p) n2 = some q := by
    rw [pLook_pInsert_ne st.positions n1 p n2 hne]
    exact hq
  have hdomI : ∀ x ∈ ([n1] : List Nat), x = n1 ∨ x ∈ edgeIds g := by
    intro x hx
    simp at hx
    exact Or.inl hx
  have hfuelI : ([n1] : List Nat).length +
      degSum g ((n1 :: edgeIds g).dedup) [] ≤ 2 * g.edges.length + 2 := by
    have h1 := degSum_start_le hInv n1
    simpa using h1
  have hpass1 := bfs_master g st.camera hInv e1id n1 n2 n1 n1 p q he1
    (fun pos => pLook pos n1 = some p ∧ pLook pos n2 = some q)
    (fun pos hP => hP.1) (fun pos hP => hP.2) hPe1
    (fun h => absurd rfl h) hlinkA
    (2 * g.edges.length + 2) [] [n1] (pInsert st.positions n1 p)
    ⟨pLook_pInsert_self st.positions n1 p, hq0⟩
    (fun h => absurd h (by simp))
    hdomI (Or.inl (List.mem_cons_self n1 []))
    (fun h => absurd h (by simp))
    (fun h => absurd h (by simp)) hfuelI
  set st1 := GraphEditor.move_node st n1 p with hst1def
  have hg1 : st1.graph = g := by
    rw [hmv, upf_graph]
  have hP2init : pLook st1.positions n1 = some p ∧
      pLook st1.positions n2 = some q ∧
      pLook st1.positions e1id = some (mid p q) := by
    rw [hmv]
    exact ⟨hpass1.1.1, hpass1.1.2, hpass1.2⟩
  have hP2e : ∀ pos curr e a b,
      (pLook pos n1 = some p ∧ pLook pos n2 = some q ∧
        pLook pos e1id = some (mid p q)) →
      g.get_edge curr = some e →
      pLook pos e.source = some a → pLook pos e.target = some b →
      (pLook (pInsert pos curr (mid a b)) n1 = some p ∧
        pLook (pInsert pos curr (mid a b)) n2 = some q ∧
        pLook (pInsert pos curr (mid a b)) e1id = some (mid p q)) := by
    intro pos curr e a b hP hge hs2 ht2
    have hc1 : curr ≠ n1 := by
      intro h
      rw [h, hn1] at hge
      exact Option.noConfusion hge
    have hc2 : curr ≠ n2 := by
      intro h
      rw [h, hn2] at hge
      exact Option.noConfusion hge
    refine ⟨?_, ?_, ?_⟩
    · rw [pLook_pInsert_ne pos curr (mid a b) n1 hc1]
      exact hP.1
    · rw [pLook_pInsert_ne pos curr (mid a b) n2 hc2]
      exact hP.2.1
    · by_cases hce : curr = e1id
      · subst hce
        have hlit : g.get_edge curr = some ⟨curr, n1, n2⟩ :=
          get_edge_of_mem hInv.edgeNodup he1
        rw [hlit] at hge
        have hee : e = ⟨curr, n1, n2⟩ := (Option.some.inj hge).symm
        subst hee
        have hs3 : pLook pos n1 = some a := hs2
        rw [hP.1] at hs3
        have ht3 : pLook pos n2 = some b := ht2
        rw [hP.2.1] at ht3
        have ha : a = p := (Option.some.inj hs3).symm
        have hb : b = q := (Option.some.inj ht3).symm
        subst ha
        subst hb
        rw [pLook_pInsert_self]
      · rw [pLook_pInsert_ne pos curr (mid a b) e1id hce]
        exact hP.2.2
  have hmv2 : st1.update_positions_recursive n1 =
      GraphState.update_positions_fuel (2 * g.edges.length + 2)
        ⟨g, st1.positions, st1.camera⟩ [] [n1] := by
    unfold GraphState.update_positions_recursive
    rw [hg1]
    conv_lhs => rw [show st1 = (⟨g, st1.positions, st1.camera⟩ : GraphState)
      from by rw [← hg1]]
  have hpass2 := bfs_master g st1.camera hInv e2id e1id n2 n1 e1id
    (mid p q) q he2
    (fun pos => pLook pos n1 = some p ∧ pLook pos n2 = some q ∧
      pLook pos e1id = some (mid p q))
    (fun pos hP => hP.2.2) (fun pos hP => hP.2.1) hP2e
    (fun _ => Or.inl (edge_mem_out hInv he1))
    (Or.inl (edge_mem_out hInv he2))
    (2 * g.edges.length + 2) [] [n1] st1.positions
    hP2init
    (fun h => absurd h (by simp))
    hdomI (Or.inl (List.mem_cons_self n1 []))
    (fun h => absurd h (by simp))
    (fun h => absurd h (by simp)) hfuelI
  refine ⟨?_, ?_, ?_⟩
  · exact hP2init.2.2
  · rw [hmv2]
    exact hpass2.2
  · rw [hmv2]
    exact hpass2.1.2.2

/-- C8 witness: the universal propagation theorem at the concrete scenario
gC8 (nodes 0 and 1, the edge 2 = (0 → 1) and the dependent edge
3 = (2 → 1)), with node 1 at (2, 0) and the move taking node 0 to (0, 0). -/
theorem c8_witness :
    Reachable gC8 ∧ (⟨2, 0, 1⟩ : Edge) ∈ gC8.edges ∧
    (⟨3, 2, 1⟩ : Edge) ∈ gC8.edges ∧
    pLook (GraphEditor.move_node (stC8 ⟨2, 0⟩) 0 ⟨0, 0⟩).positions 2 =
      some (mid ⟨0, 0⟩ ⟨2, 0⟩) ∧
    pLook ((GraphEditor.move_node (stC8 ⟨2, 0⟩) 0
        ⟨0, 0⟩).update_positions_recursive 0).positions 3 =
      some (mid (mid ⟨0, 0⟩ ⟨2, 0⟩) ⟨2, 0⟩) := by
  have hreach : Reachable gC8 :=
    Reachable.add_edge 2 1 (Reachable.add_edge 0 1
      (Reachable.add_node (Reachable.add_node Reachable.new)))
  have hmain := c8_propagation_universal gC8 (stC8 ⟨2, 0⟩) 0 1 2 3
    ⟨0, 0⟩ ⟨2, 0⟩ hreach rfl (by decide) (by decide) (by decide) (by decide)
    (by decide) rfl
  exact ⟨hreach, by decide, by decide, hmain.1, hmain.2.1⟩

/-- C10, counterexample: the claimed invariant that every live edge identity
also owns a node record fails after removals.  Removing the edge identity 2
with Graph::remove_node (the branch remove_element selects for it) deletes
the node record but leaves the edge record live, so get_edge 2 resolves while
get_node 2 is None. -/
theorem c10_counterexample :
    (gE1.remove_node 2).1.get_edge 2 = some ⟨2, 0, 1⟩ ∧
    (gE1.remove_node 2).1.get_node 2 = none := by decide

/-- C3, amended: add_edge returns None exactly when the source or the target
lacks a NODE record in the arena (an edge record alone does not qualify,
although every edge normally carries a companion node record); and on None
the whole graph, its arena, edge table and both index maps included, is left
unchanged. -/
theorem c3_amended_add_edge_none_iff (g : Graph) (s t : Nat) :
    ((g.add_edge s t).2 = none ↔ s ∉ g.nodes ∨ t ∉ g.nodes) ∧
    ((g.add_edge s t).2 = none → (g.add_edge s t).1 = g) := by
  by_cases hc : s ∈ g.nodes ∧ t ∈ g.nodes
  · have heq : Graph.add_edge g s t =
        ({ nextId := g.nextId + 1,
           nodes := g.nodes ++ [g.nextId],
           edges := g.edges ++ [⟨g.nextId, s, t⟩],
           source_to_edges := mInsert g.source_to_edges s g.nextId,
           target_to_edges := mInsert g.target_to_edges t g.nextId },
          some g.nextId) := by
      unfold Graph.add_edge
      rw [if_pos hc]
    rw [heq]
    constructor
    · simp [hc.1, hc.2]
    · intro h
      simp at h
  · have heq : Graph.add_edge g s t = (g, none) := by
      unfold Graph.add_edge
      rw [if_neg hc]
    rw [heq]
    exact ⟨iff_of_true rfl (not_and_or.1 hc), fun _ => rfl⟩

/-- C3, witness for the amended theorem: in the empty graph, 0 is not a node,
so add_edge 0 0 fails and changes nothing. -/
theorem c3_witness :
    (Graph.new.add_edge 0 0).2 = none ∧
    (Graph.new.add_edge 0 0).1 = Graph.new := by
  have h := c3_amended_add_edge_none_iff Graph.new 0 0
  have hn : (Graph.new.add_edge 0 0).2 = none :=
    h.1.mpr (Or.inl (by decide))
  exact ⟨hn, h.2 hn⟩

theorem pLook_filter (f : Nat → Bool) :
    ∀ (l : List (Nat × Pos2)) (k : Nat),
      pLook (l.filter (fun pr => f pr.1)) k =
        if f k then pLook l k else none := by
  intro l
  induction l with
  | nil => intro k; by_cases h : f k <;> simp [pLook, h]
  | cons pr t ih =>
    intro k
    by_cases hpr : f pr.1
    · rw [List.filter_cons_of_pos (by simpa using hpr)]
      by_cases hk : pr.1 = k
      · subst hk
        rw [pLook, if_pos rfl, if_pos hpr, pLook, if_pos rfl]
      · rw [pLook, if_neg hk, ih]
        by_cases hfk : f k
        · rw [if_pos hfk, if_pos hfk, pLook, if_neg hk]
        · rw [if_neg hfk, if_neg hfk]
    · rw [List.filter_cons_of_neg (by simpa using hpr)]
      rw [ih]
      by_cases hfk : f k
      · have hk : pr.1 ≠ k := fun h => hpr (h ▸ hfk)
        rw [if_pos hfk, if_pos hfk, pLook, if_neg hk]
      · rw [if_neg hfk, if_neg hfk]

/-- C5, amended: after cleanup_positions the overlay holds an entry for id
exactly when id still owns a node record or an edge record in the arena (and
then the entry is unchanged).  An identity removed by cascade can retain a
stale node record, so its overlay entry survives cleanup — the claim holds
only for identities absent from both arena tables. -/
theorem c5_amended_cleanup_keeps_arena_ids (st : GraphState) (id : Nat) :
    pLook (st.cleanup_positions).positions id =
      if (st.graph.get_node id).isSome || (st.graph.get_edge id).isSome
      then pLook st.positions id else none := by
  unfold GraphState.cleanup_positions
  exact pLook_filter
    (fun i => (st.graph.get_node i).isSome || (st.graph.get_edge i).isSome)
    st.positions id

/-- C6: after any sequence of engine mutators starting from the empty graph,
every present edge e = (s, t) is a member of the outgoing index entry of s
and of the incoming index entry of t, and every identity appearing as a
member of either index names a currently-existing edge record. -/
theorem c6_adjacency_invariant (g : Graph) (h : Reachable g) :
    (∀ e ∈ g.edges, e.id ∈ mlook g.source_to_edges e.source ∧
        e.id ∈ mlook g.target_to_edges e.target) ∧
    (∀ p ∈ g.source_to_edges, ∀ x ∈ p.2, x ∈ edgeIds g) ∧
    (∀ p ∈ g.target_to_edges, ∀ x ∈ p.2, x ∈ edgeIds g) := by
  have hInv := reachable_inv h
  refine ⟨hInv.consA, ?_, ?_⟩
  · intro p hp x hx
    obtain ⟨e, he, heid, _⟩ := hInv.2.2.2.2.1 p hp x hx
    exact mem_edgeIds.2 ⟨e, he, heid⟩
  · intro p hp x hx
    obtain ⟨e, he, heid, _⟩ := hInv.2.2.2.2.2.1 p hp x hx
    exact mem_edgeIds.2 ⟨e, he, heid⟩

/-- C6, witness: the invariant theorem applied to the concretely reachable
graph gE1 places its edge 2 in the outgoing index entry of node 0. -/
theorem c6_witness : (2 : Nat) ∈ mlook gE1.source_to_edges 0 := by
  have hreach : Reachable gE1 :=
    Reachable.add_edge 0 1 (Reachable.add_node (Reachable.add_node Reachable.new))
  have h := c6_adjacency_invariant gE1 hreach
  exact (h.1 ⟨2, 0, 1⟩ (by decide)).1

/-- C10, amended: every edge is created together with a node record under the
same identity, so in any state reachable WITHOUT removals every live edge
identity also owns a node record (which is why remove_element dispatches live
edges through its node branch); removals can strip the node record while the
edge record survives, so the unrestricted invariant fails (see the
counterexample). -/
theorem c10_amended_edge_has_node_record (g : Graph) (h : ReachableNR g) :
    ∀ e ∈ g.edges, e.id ∈ g.nodes := by
  induction h with
  | new => intro e he; simp [Graph.new] at he
  | add_node _ ih =>
    intro e he
    exact List.mem_append.2 (Or.inl (ih e he))
  | add_edge s t _ ih =>
    rename_i g0 _
    intro e he
    by_cases hc : s ∈ g0.nodes ∧ t ∈ g0.nodes
    · have heq : (Graph.add_edge g0 s t).1 =
          { nextId := g0.nextId + 1,
            nodes := g0.nodes ++ [g0.nextId],
            edges := g0.edges ++ [⟨g0.nextId, s, t⟩],
            source_to_edges := mInsert g0.source_to_edges s g0.nextId,
            target_to_edges := mInsert g0.target_to_edges t g0.nextId } := by
        unfold Graph.add_edge
        rw [if_pos hc]
      rw [heq] at he ⊢
      rcases List.mem_append.1 he with h0 | h0
      · exact List.mem_append.2 (Or.inl (ih e h0))
      · rw [List.mem_singleton.1 h0]
        exact List.mem_append.2 (Or.inr (List.mem_singleton.2 rfl))
    · have heq : Graph.add_edge g0 s t = (g0, none) := by
        unfold Graph.add_edge
        rw [if_neg hc]
      rw [heq] at he ⊢
      exact ih e he

/-- C10, witness for the amended theorem: gE1 is reachable without removals
and its edge identity 2 indeed owns a node record. -/
theorem c10_witness : (2 : Nat) ∈ gE1.nodes := by
  have hreach : ReachableNR gE1 :=
    ReachableNR.add_edge 0 1
      (ReachableNR.add_node (ReachableNR.add_node ReachableNR.new))
  exact c10_amended_edge_has_node_record gE1 hreach ⟨2, 0, 1⟩ (by decide)

theorem decNat_enc (n : Nat) (rest : List Int) :
    decNat ((n : Int) :: rest) = some (n, rest) := by
  simp [decNat]

theorem decNatN_enc (l : List Nat) (rest : List Int) :
    decNatN l.length (l.map Int.ofNat ++ rest) = some (l, rest) := by
  induction l with
  | nil => simp [decNatN]
  | cons n t ih => simp [decNatN, decNat, ih]

theorem decNats_enc (l : List Nat) (rest : List Int) :
    decNats (encNats l ++ rest) = some (l, rest) := by
  simp [decNats, encNats, decNat, decNatN_enc]

theorem decEdge_enc (e : Edge) (rest : List Int) :
    decEdge (encEdge e ++ rest) = some (e, rest) := by
  cases e
  simp [decEdge, encEdge, decNat]

theorem decEdgeN_enc (l : List Edge) (rest : List Int) :
    decEdgeN l.length ((l.map encEdge).flatten ++ rest) = some (l, rest) := by
  induction l with
  | nil => simp [decEdgeN]
  | cons e t ih =>
    simp only [List.map_cons, List.flatten_cons, List.length_cons,
      List.append_assoc]
    simp [decEdgeN, decEdge_enc, ih]

theorem decEdges_enc (l : List Edge) (rest : List Int) :
    decEdges (encEdges l ++ rest) = some (l, rest) := by
  simp [decEdges, encEdges, decNat, decEdgeN_enc]

theorem decEntry_enc (p : Nat × List Nat) (rest : List Int) :
    decEntry (encEntry p ++ rest) = some (p, rest) := by
  cases p
  simp [decEntry, encEntry, decNat, decNats_enc]

theorem decEntryN_enc (l : List (Nat × List Nat)) (rest : List Int) :
    decEntryN l.length ((l.map encEntry).flatten ++ rest) = some (l, rest) := by
  induction l with
  | nil => simp [decEntryN]
  | cons p t ih =>
    simp only [List.map_cons, List.flatten_cons, List.length_cons,
      List.append_assoc]
    simp [decEntryN, decEntry_enc, ih]

theorem decMap_enc (l : List (Nat × List Nat)) (rest : List Int) :
    decMap (encMap l ++ rest) = some (l, rest) := by
  simp [decMap, encMap, decNat, decEntryN_enc]

theorem decRat_enc (q : ℚ) (rest : List Int) :
    decRat (encRat q ++ rest) = some (q, rest) := by
  simp [decRat, encRat, Rat.num_div_den]

theorem decPos_enc (p : Pos2) (rest : List Int) :
    decPos (encPos p ++ rest) = some (p, rest) := by
  cases p
  simp [decPos, encPos, decRat_enc, List.append_assoc]

theorem decPosEntry_enc (pr : Nat × Pos2) (rest : List Int) :
    decPosEntry (encPosEntry pr ++ rest) = some (pr, rest) := by
  cases pr
  simp [decPosEntry, encPosEntry, decNat, decPos_enc]

theorem decPosEntryN_enc (l : List (Nat × Pos2)) (rest : List Int) :
    decPosEntryN l.length ((l.map encPosEntry).flatten ++ rest) =
      some (l, rest) := by
  induction l with
  | nil => simp [decPosEntryN]
  | cons pr t ih =>
    simp only [List.map_cons, List.flatten_cons, List.length_cons,
      List.append_assoc]
    simp [decPosEntryN, decPosEntry_enc, ih]

theorem decOverlay_enc (l : List (Nat × Pos2)) (rest : List Int) :
    decOverlay (encOverlay l ++ rest) = some (l, rest) := by
  simp [decOverlay, encOverlay, decNat, decPosEntryN_enc]

theorem decCamera_enc (c : Camera) (rest : List Int) :
    decCamera (encCamera c ++ rest) = some (c, rest) := by
  cases c
  simp [decCamera, encCamera, decRat_enc, List.append_assoc]

theorem decCamera_enc_nil (c : Camera) :
    decCamera (encCamera c) = some (c, []) := by
  have h := decCamera_enc c []
  simpa using h

theorem decodeGraph_enc (g : Graph) (rest : List Int) :
    decodeGraph (encodeGraph g ++ rest) = some (g, rest) := by
  cases g
  simp [decodeGraph, encodeGraph, decNat, decNats_enc, decEdges_enc,
    decMap_enc, List.append_assoc]

/-- C9: serializing a graph state (arena, edge source/target table, position
overlay, view state) and deserializing the blob restores the state exactly —
the same element identities, the same edge records, the same overlay entries;
identities are never renumbered.  The codec is modelled from the spec, since
the concrete byte format is produced by the external bincode/serde derive
code; the roundtrip holds for every state, in particular those with
node-to-node and edge-to-edge edges. -/
theorem c9_snapshot_roundtrip (st : GraphState) :
    decodeGraphState (encodeGraphState st) = some st := by
  obtain ⟨g, ps, cam⟩ := st
  have hsplit : encodeGraphState ⟨g, ps, cam⟩ =
      encodeGraph g ++ (encOverlay ps ++ (encCamera cam ++ [])) := by
    simp [encodeGraphState]
  rw [hsplit]
  simp [decodeGraphState, decodeGraph_enc, decOverlay_enc, decCamera_enc,
    decCamera_enc_nil]

end NodeSim
